import Mathlib

/-!
Shallow embedding of the id_tree arena tree (src/tree.rs) and the
post-order traversal exercised by src/tests/iterator_tests.rs.

Conventions of the embedding:
* `ProcessUniqueId` is modelled as a `Nat` supplied at construction time;
  two distinct arena instances carry distinct stamps.
* Rust `Vec<Option<Node<T>>>` is a `List (Option (Node T))`; `push` is
  append, `swap_remove` is modelled by `swapRemove` below, `pop` takes the
  last element.
* A Rust function that can panic is modelled with an `Option` result;
  `none` means the execution panics (an uncaught fault), `some` is the
  value actually returned to the caller.  A Rust `Result<A, NodeIdError>`
  becomes `Except NodeIdError A` inside that `Option`.
* Mutation through `get_mut` is modelled by writing the updated node back
  into the slot vector at the same index, in the same order as the source.
-/

namespace IdTree

/-- Handle into one arena: the stamp of the owning tree plus a slot index
(`NodeId` in src/tree.rs, fields `tree_id` and `index`). -/
structure NodeId where
  tree_id : Nat
  index : Nat
deriving DecidableEq, Repr

/-- The two recoverable error kinds surfaced by handle validation. -/
inductive NodeIdError where
  | InvalidNodeIdForTree
  | NodeIdNoLongerValid
deriving DecidableEq, Repr

/-- Modelled from the spec: `Node` is not under src/ (only its use sites
are).  Per the spec data model it holds the caller payload, an optional
parent handle and the ordered child-handle list; a fresh node has no
parent and no children. -/
structure Node (T : Type) where
  data : T
  parent : Option NodeId
  children : List NodeId
deriving DecidableEq, Repr

/-- Modelled from the spec: the only way callers create a `Node` is the
`Node::new` constructor, which takes just the payload. -/
def Node.new {T : Type} (d : T) : Node T :=
  { data := d, parent := none, children := [] }

/-- Modelled from the spec: the arena-internal mutator appending a child
handle, keeping insertion order. -/
def Node.add_child {T : Type} (n : Node T) (c : NodeId) : Node T :=
  { n with children := n.children ++ [c] }

/-- Modelled from the spec: the arena-internal mutator replacing the
parent link. -/
def Node.set_parent {T : Type} (n : Node T) (p : Option NodeId) : Node T :=
  { n with parent := p }

/-- The arena (`Tree` in src/tree.rs): stamp, optional root handle, slot
vector and free-slot list. -/
structure Tree (T : Type) where
  id : Nat
  root : Option NodeId
  nodes : List (Option (Node T))
  free_ids : List NodeId
deriving DecidableEq, Repr

/-- `Vec::swap_remove(i)`: return element `i`, move the last element into
its place and shrink by one; `none` models the out-of-bounds panic. -/
def swapRemove {α : Type} (l : List α) (i : Nat) : Option (α × List α) :=
  match l[i]?, l.getLast? with
  | some x, some last => some (x, (l.set i last).dropLast)
  | _, _ => none

/-- `TreeBuilder` (src/tree.rs lines 13-17). -/
structure TreeBuilder (T : Type) where
  root : Option (Node T)
  node_capacity : Nat
  swap_capacity : Nat

/-- `TreeBuilder::new`. -/
def TreeBuilder.new {T : Type} : TreeBuilder T :=
  { root := none, node_capacity := 0, swap_capacity := 0 }

/-- `TreeBuilder::with_root`. -/
def TreeBuilder.with_root {T : Type} (b : TreeBuilder T) (r : Node T) : TreeBuilder T :=
  { b with root := some r }

/-- `TreeBuilder::with_node_capacity` (capacity hints only affect
allocation, which the embedding does not track). -/
def TreeBuilder.with_node_capacity {T : Type} (b : TreeBuilder T) (c : Nat) : TreeBuilder T :=
  { b with node_capacity := c }

/-- `TreeBuilder::with_swap_capacity`. -/
def TreeBuilder.with_swap_capacity {T : Type} (b : TreeBuilder T) (c : Nat) : TreeBuilder T :=
  { b with swap_capacity := c }

/-- `TreeBuilder::build` (src/tree.rs lines 125-148).  The fresh
`ProcessUniqueId` is passed in as `tree_id`; distinct instances receive
distinct stamps. -/
def TreeBuilder.build {T : Type} (b : TreeBuilder T) (tree_id : Nat) : Tree T :=
  match b.root with
  | some r =>
      { id := tree_id, root := some { tree_id := tree_id, index := 0 },
        nodes := [some r], free_ids := [] }
  | none => { id := tree_id, root := none, nodes := [], free_ids := [] }

/-- `Tree::new_node_id` (src/tree.rs lines 452-457). -/
def Tree.new_node_id {T : Type} (t : Tree T) (node_index : Nat) : NodeId :=
  { tree_id := t.id, index := node_index }

/-- `Tree::is_valid_node_id` (src/tree.rs lines 459-475): stamp check,
then bounds check (out of bounds panics: `none`), then emptiness check. -/
def Tree.is_valid_node_id {T : Type} (t : Tree T) (node_id : NodeId) :
    Option (Bool × Option NodeIdError) :=
  if node_id.tree_id ≠ t.id then
    some (false, some NodeIdError.InvalidNodeIdForTree)
  else
    match t.nodes[node_id.index]? with
    | none => none
    | some none => some (false, some NodeIdError.NodeIdNoLongerValid)
    | some (some _) => some (true, none)

/-- `Tree::get` (src/tree.rs lines 262-268).  Outer `none` is the
(unreachable for in-bounds handles) unwrap panic; the inner option is the
`Option<&Node>` handed to the caller. -/
def Tree.get {T : Type} (t : Tree T) (node_id : NodeId) : Option (Option (Node T)) :=
  match t.is_valid_node_id node_id with
  | none => none
  | some (true, _) =>
      match t.nodes[node_id.index]? with
      | none => none
      | some slot => some slot
  | some (false, _) => some none

/-- `Tree::get_mut` (src/tree.rs lines 287-293): the lookup part is the
same as `get`; the mutation through the returned reference is modelled at
each call site by writing the slot back. -/
def Tree.get_mut {T : Type} (t : Tree T) (node_id : NodeId) : Option (Option (Node T)) :=
  match t.is_valid_node_id node_id with
  | none => none
  | some (true, _) =>
      match t.nodes[node_id.index]? with
      | none => none
      | some slot => some slot
  | some (false, _) => some none

/-- `Tree::is_root_node` (src/tree.rs lines 477-484). -/
def Tree.is_root_node {T : Type} (t : Tree T) (node_id : NodeId) : Bool :=
  match t.root with
  | some root_id => decide (root_id = node_id)
  | none => false

/-- `Tree::root_node_id` (src/tree.rs lines 383-385). -/
def Tree.root_node_id {T : Type} (t : Tree T) : Option NodeId :=
  t.root

/-- `Tree::insert_new_node` (src/tree.rs lines 397-413): reuse the last
free slot via push + swap_remove, else append a fresh slot. -/
def Tree.insert_new_node {T : Type} (t : Tree T) (new_node : Node T) :
    Option (Tree T × NodeId) :=
  if t.free_ids.length > 0 then
    match t.free_ids.getLast? with
    | none => none
    | some nid =>
        match swapRemove (t.nodes ++ [some new_node]) nid.index with
        | none => none
        | some (_, nodes2) =>
            some ({ t with nodes := nodes2, free_ids := t.free_ids.dropLast }, nid)
  else
    some ({ t with nodes := t.nodes ++ [some new_node] },
          t.new_node_id t.nodes.length)

/-- `Tree::set_as_parent_and_child` (src/tree.rs lines 387-395): add the
child to the parent node, then set the parent link of the child node; a
failing `expect` is a panic (`none`). -/
def Tree.set_as_parent_and_child {T : Type} (t : Tree T) (parent_id child_id : NodeId) :
    Option (Tree T) :=
  match t.get_mut parent_id with
  | some (some pnode) =>
      let t1 : Tree T :=
        { t with nodes := t.nodes.set parent_id.index (some (pnode.add_child child_id)) }
      match t1.get_mut child_id with
      | some (some cnode) =>
          some { t1 with
                 nodes := t1.nodes.set child_id.index (some (cnode.set_parent (some parent_id))) }
      | _ => none
  | _ => none

/-- `Tree::set_root` (src/tree.rs lines 200-212). -/
def Tree.set_root {T : Type} (t : Tree T) (new_root : Node T) :
    Option (Tree T × NodeId) :=
  match t.insert_new_node new_root with
  | none => none
  | some (t1, new_root_id) =>
      match t1.root with
      | some current_root_node_id =>
          match t1.set_as_parent_and_child new_root_id current_root_node_id with
          | none => none
          | some t2 => some ({ t2 with root := some new_root_id }, new_root_id)
      | none => some ({ t1 with root := some new_root_id }, new_root_id)

/-- `Tree::insert_with_parent` (src/tree.rs lines 233-243). -/
def Tree.insert_with_parent {T : Type} (t : Tree T) (child : Node T) (parent_id : NodeId) :
    Option (Tree T × Except NodeIdError NodeId) :=
  match t.is_valid_node_id parent_id with
  | none => none
  | some (is_valid, error) =>
      if is_valid = false then
        match error with
        | none => none
        | some e => some (t, Except.error e)
      else
        match t.insert_new_node child with
        | none => none
        | some (t1, new_child_id) =>
            match t1.set_as_parent_and_child parent_id new_child_id with
            | none => none
            | some t2 => some (t2, Except.ok new_child_id)

/-- `Tree::remove_node_dirty` (src/tree.rs lines 431-439): push `None`,
swap it into the slot, record the freed handle. -/
def Tree.remove_node_dirty {T : Type} (t : Tree T) (node_id : NodeId) :
    Option (Tree T × Node T) :=
  match swapRemove (t.nodes ++ [none]) node_id.index with
  | none => none
  | some (slot, nodes2) =>
      match slot with
      | none => none
      | some node =>
          some ({ t with nodes := nodes2, free_ids := t.free_ids ++ [node_id] }, node)

/-- `Tree::remove_node` (src/tree.rs lines 415-429): dirty removal, then
detach the node from the children list of its parent; a stale or missing
parent slot hits the explicit `panic!` branch (`none`). -/
def Tree.remove_node {T : Type} (t : Tree T) (node_id : NodeId) :
    Option (Tree T × Node T) :=
  match t.remove_node_dirty node_id with
  | none => none
  | some (t1, node) =>
      match node.parent with
      | none => some (t1, node)
      | some parent_id =>
          match t1.get_mut parent_id with
          | some (some parent_node) =>
              some ({ t1 with
                      nodes := t1.nodes.set parent_id.index
                        (some { parent_node with
                                children := parent_node.children.filter
                                  (fun c => decide (c ≠ node_id)) }) },
                    node)
          | _ => none

/-- The loop of `Tree::drop_children_recursive` (src/tree.rs lines
441-450), with the recursive call to `drop_children_recursive` on each
child inlined (look up the child, recurse into its children) and an
explicit fuel that decreases at every processed element: `none` is a
panic or fuel exhaustion (the Rust recursion never terminates on a cyclic
child structure).  For each child: look it up, drop its own children
recursively, then dirty-remove the child itself. -/
def Tree.drop_children_list {T : Type} : Nat → Tree T → List NodeId → Option (Tree T)
  | _, t, [] => some t
  | 0, _, _ :: _ => none
  | f + 1, t, c :: rest =>
      match t.get c with
      | some (some node) =>
          match Tree.drop_children_list f t node.children with
          | none => none
          | some t1 =>
              match t1.remove_node_dirty c with
              | none => none
              | some (t2, _) => Tree.drop_children_list f t2 rest
      | _ => none

/-- `Tree::drop_children_recursive` (src/tree.rs lines 441-450): look up
the node, then run the removal loop over its children. -/
def Tree.drop_children_recursive {T : Type} (fuel : Nat) (t : Tree T) (node_id : NodeId) :
    Option (Tree T) :=
  match fuel with
  | 0 => none
  | f + 1 =>
      match t.get node_id with
      | some (some node) => Tree.drop_children_list f t node.children
      | _ => none

/-- `Tree::remove_node_drop_children` (src/tree.rs lines 318-335).  The
fuel `t.nodes.length + 1` dominates the recursion depth of any acyclic
arena (depth is bounded by the number of live slots). -/
def Tree.remove_node_drop_children {T : Type} (t : Tree T) (node_id : NodeId) :
    Option (Tree T × Except NodeIdError (Node T)) :=
  match t.is_valid_node_id node_id with
  | none => none
  | some (is_valid, error) =>
      if is_valid = false then
        match error with
        | none => none
        | some e => some (t, Except.error e)
      else
        let t0 := if t.is_root_node node_id then { t with root := none } else t
        match Tree.drop_children_recursive (t0.nodes.length + 1) t0 node_id with
        | none => none
        | some t1 =>
            match t1.remove_node node_id with
            | none => none
            | some (t2, node) =>
                some (t2, Except.ok { node with children := [] })

/-- `Tree::remove_node_orphan_children` (src/tree.rs lines 360-367). -/
def Tree.remove_node_orphan_children {T : Type} (t : Tree T) (node_id : NodeId) :
    Option (Tree T × Except NodeIdError (Node T)) :=
  match t.is_valid_node_id node_id with
  | none => none
  | some (is_valid, error) =>
      if is_valid = false then
        match error with
        | none => none
        | some e => some (t, Except.error e)
      else
        match t.remove_node node_id with
        | none => none
        | some (t1, node) => some (t1, Except.ok node)

/-- Modelled from the spec: post-order traversal is not under src/ (only
its test is).  This is the list form of the recursion of spec section
4.4: the concatenation, left to right, of the postorders of a list of
handles, where postorder(h) is the postorder of the children of h
followed by h itself.  The fuel decreases at every processed element;
`none` is a failed lookup, a panic, or fuel exhaustion. -/
def post_order_list {T : Type} : Nat → Tree T → List NodeId → Option (List NodeId)
  | _, _, [] => some []
  | 0, _, _ :: _ => none
  | f + 1, t, c :: rest =>
      match t.get c with
      | some (some node) =>
          match post_order_list f t node.children with
          | none => none
          | some l1 =>
              match post_order_list f t rest with
              | none => none
              | some l2 => some ((l1 ++ [c]) ++ l2)
      | _ => none

/-- Modelled from the spec: postorder(h) = postorder(child 1) ++ ... ++
postorder(child k) ++ [h], with the children in insertion order; the
start handle must validate. -/
def post_order_ids {T : Type} (fuel : Nat) (t : Tree T) (nid : NodeId) :
    Option (List NodeId) :=
  match fuel with
  | 0 => none
  | f + 1 =>
      match t.get nid with
      | some (some node) =>
          match post_order_list f t node.children with
          | none => none
          | some l => some (l ++ [nid])
      | _ => none

/-- Modelled from the spec: the materialized post-order handle sequence
from a start handle (`traverse_post_order_ids` in the tests), with the
canonical fuel that suffices for every acyclic arena. -/
def Tree.traverse_post_order_ids {T : Type} (t : Tree T) (nid : NodeId) :
    Option (List NodeId) :=
  post_order_ids (t.nodes.length + 1) t nid

/-- The parent handle stored at a live slot, if any: one upward step of
the parent chain of the data model. -/
def parent_handle {T : Type} (t : Tree T) (h : NodeId) : Option NodeId :=
  match t.nodes[h.index]? with
  | some (some node) => node.parent
  | _ => none

/-- n upward steps along stored parent handles; `none` when the chain
leaves the live arena. -/
def upIter {T : Type} (t : Tree T) : Nat → NodeId → Option NodeId
  | 0, h => some h
  | n + 1, h =>
      match parent_handle t h with
      | some p => upIter t n p
      | none => none

/-- The children-consistency part of the arena invariant of the spec data
model: every live node lists children with the arena stamp, pairwise
distinct slots, each naming a live slot whose node reports this node as
parent. -/
def children_consistent {T : Type} (t : Tree T) : Prop :=
  ∀ i node, t.nodes[i]? = some (some node) →
    (node.children.map NodeId.index).Nodup ∧
    ∀ c ∈ node.children, c.tree_id = t.id ∧
      ∃ cn : Node T, t.nodes[c.index]? = some (some cn) ∧ cn.parent = some ⟨t.id, i⟩

/-- Executable check of one slot for `children_consistent`. -/
def checkSlot {T : Type} (t : Tree T) (i : Nat) : Option (Node T) → Bool
  | none => true
  | some node =>
      decide (node.children.map NodeId.index).Nodup &&
      node.children.all fun c =>
        decide (c.tree_id = t.id) &&
        match t.nodes[c.index]? with
        | some (some cn) => decide (cn.parent = some ⟨t.id, i⟩)
        | _ => false

/-- Executable sweep of `checkSlot` over a slot suffix starting at index
`i`. -/
def childrenOkAux {T : Type} (t : Tree T) : Nat → List (Option (Node T)) → Bool
  | _, [] => true
  | i, s :: rest => checkSlot t i s && childrenOkAux t (i + 1) rest

/-- Executable check of `children_consistent` over the whole arena. -/
def childrenOkB {T : Type} (t : Tree T) : Bool :=
  childrenOkAux t 0 t.nodes

/-- Number of live (occupied) slots of the arena. -/
def Tree.live_count {T : Type} (t : Tree T) : Nat :=
  t.nodes.countP (fun s => s.isSome)

/-- First projection of an operation result, for composing call sequences. -/
def treeOf {T : Type} {b : Type} (o : Option (Tree T × b)) : Option (Tree T) :=
  o.map Prod.fst

/-- The chain arena: value 0 at slot 0 (root), value 1 at slot 1 under it,
value 2 at slot 2 under that. -/
def chainT : Tree Nat :=
  { id := 0, root := some ⟨0, 0⟩,
    nodes := [some { data := 0, parent := none, children := [⟨0, 1⟩] },
              some { data := 1, parent := some ⟨0, 0⟩, children := [⟨0, 2⟩] },
              some { data := 2, parent := some ⟨0, 1⟩, children := [] }],
    free_ids := [] }

/-- The call sequence that produces `chainT`. -/
def chainT_build : Option (Tree Nat) :=
  (treeOf (((TreeBuilder.new.with_root (Node.new 0)).build 0).insert_with_parent
      (Node.new 1) ⟨0, 0⟩)).bind fun t =>
    treeOf (t.insert_with_parent (Node.new 2) ⟨0, 1⟩)

/-- `chainT` after orphaning removal of the middle node: slot 1 freed, the
node holding 2 keeps its now-stale parent handle. -/
def orphanB : Tree Nat :=
  { id := 0, root := some ⟨0, 0⟩,
    nodes := [some { data := 0, parent := none, children := [] },
              none,
              some { data := 2, parent := some ⟨0, 1⟩, children := [] }],
    free_ids := [⟨0, 1⟩] }

/-- `chainT` after orphaning removal of the root: the root pointer still
names slot 0, which is now empty. -/
def orphanA : Tree Nat :=
  { id := 0, root := some ⟨0, 0⟩,
    nodes := [none,
              some { data := 1, parent := some ⟨0, 0⟩, children := [⟨0, 2⟩] },
              some { data := 2, parent := some ⟨0, 1⟩, children := [] }],
    free_ids := [⟨0, 0⟩] }

/-- Single-node arena holding 5 at slot 0, as built by the builder. -/
def builtFive : Tree Nat :=
  { id := 0, root := some ⟨0, 0⟩,
    nodes := [some { data := 5, parent := none, children := [] }],
    free_ids := [] }

/-- `builtFive` after cascading removal of its root: slot 0 freed. -/
def freedFive : Tree Nat :=
  { id := 0, root := none, nodes := [none], free_ids := [⟨0, 0⟩] }

/-- `freedFive` after `set_root` with value 6: slot 0 reused, and the
minted handle is the very handle that was freed. -/
def reusedSix : Tree Nat :=
  { id := 0, root := some ⟨0, 0⟩,
    nodes := [some { data := 6, parent := none, children := [] }],
    free_ids := [] }

/-- `builtFive` after orphaning removal of its root: the root pointer
still names the freed slot. -/
def danglingRoot : Tree Nat :=
  { id := 0, root := some ⟨0, 0⟩, nodes := [none], free_ids := [⟨0, 0⟩] }

/-- State of the aliasing sequence for the back-reference claim: built by
root 0, insert 1 under it, orphan-remove the root, insert 2 under the node
holding 1 (this reuses freed slot 0 while the stale root pointer and the
stale parent handle of the node holding 1 still name slot 0), then
set_root 3.  The node holding 1 is live and lists slot 0 as a child, but
the node now at slot 0 reports slot 2 as its parent. -/
def aliasRootT : Tree Nat :=
  { id := 0, root := some ⟨0, 2⟩,
    nodes := [some { data := 2, parent := some ⟨0, 2⟩, children := [] },
              some { data := 1, parent := some ⟨0, 0⟩, children := [⟨0, 0⟩] },
              some { data := 3, parent := none, children := [⟨0, 0⟩] }],
    free_ids := [] }

/-- The call sequence that produces `aliasRootT`. -/
def aliasRootT_build : Option (Tree Nat) :=
  (treeOf (((TreeBuilder.new.with_root (Node.new 0)).build 0).insert_with_parent
      (Node.new 1) ⟨0, 0⟩)).bind fun t =>
  (treeOf (t.remove_node_orphan_children ⟨0, 0⟩)).bind fun t =>
  (treeOf (t.insert_with_parent (Node.new 2) ⟨0, 1⟩)).bind fun t =>
  treeOf (t.set_root (Node.new 3))

/-- The eight-node post-order scenario arena of the iterator test: root
value 0 with children 1, 3, 4; 1 has child 2; 4 has children 5, 6, 7.
Values equal slot indexes. -/
def eightT : Tree Nat :=
  { id := 0, root := some ⟨0, 0⟩,
    nodes := [some { data := 0, parent := none, children := [⟨0, 1⟩, ⟨0, 3⟩, ⟨0, 4⟩] },
              some { data := 1, parent := some ⟨0, 0⟩, children := [⟨0, 2⟩] },
              some { data := 2, parent := some ⟨0, 1⟩, children := [] },
              some { data := 3, parent := some ⟨0, 0⟩, children := [] },
              some { data := 4, parent := some ⟨0, 0⟩, children := [⟨0, 5⟩, ⟨0, 6⟩, ⟨0, 7⟩] },
              some { data := 5, parent := some ⟨0, 4⟩, children := [] },
              some { data := 6, parent := some ⟨0, 4⟩, children := [] },
              some { data := 7, parent := some ⟨0, 4⟩, children := [] }],
    free_ids := [] }

/-- The call sequence of the iterator test producing `eightT`. -/
def eightT_build : Option (Tree Nat) :=
  (treeOf ((TreeBuilder.new.build 0).set_root (Node.new 0))).bind fun t =>
  (treeOf (t.insert_with_parent (Node.new 1) ⟨0, 0⟩)).bind fun t =>
  (treeOf (t.insert_with_parent (Node.new 2) ⟨0, 1⟩)).bind fun t =>
  (treeOf (t.insert_with_parent (Node.new 3) ⟨0, 0⟩)).bind fun t =>
  (treeOf (t.insert_with_parent (Node.new 4) ⟨0, 0⟩)).bind fun t =>
  (treeOf (t.insert_with_parent (Node.new 5) ⟨0, 4⟩)).bind fun t =>
  (treeOf (t.insert_with_parent (Node.new 6) ⟨0, 4⟩)).bind fun t =>
  treeOf (t.insert_with_parent (Node.new 7) ⟨0, 4⟩)

/-- Data values along a traversal, with the unwrap of the test mapped to
`none` on failure. -/
def post_order_values (t : Tree Nat) (h : NodeId) : Option (List Nat) :=
  (t.traverse_post_order_ids h).bind fun l =>
    l.mapM fun nid =>
      match t.get nid with
      | some (some n) => some n.data
      | _ => none

/-! ### Basic unfolding lemmas for the validation protocol and storage -/

theorem swapRemove_push {a : Type} {l : List a} {i : Nat} {v : a} (x : a)
    (h : l[i]? = some v) :
    swapRemove (l ++ [x]) i = some (v, l.set i x) := by
  have hlt : i < l.length := (List.getElem?_eq_some_iff.mp h).1
  simp only [swapRemove, List.getElem?_append_left hlt, h, List.getLast?_concat]
  rw [List.set_append, if_pos hlt, List.dropLast_concat]

theorem is_valid_of_slot {T : Type} {t : Tree T} {nid : NodeId} {n : Node T}
    (hid : nid.tree_id = t.id) (hs : t.nodes[nid.index]? = some (some n)) :
    t.is_valid_node_id nid = some (true, none) := by
  simp [Tree.is_valid_node_id, hid, hs]

theorem is_valid_stale {T : Type} {t : Tree T} {nid : NodeId}
    (hid : nid.tree_id = t.id) (hs : t.nodes[nid.index]? = some none) :
    t.is_valid_node_id nid = some (false, some NodeIdError.NodeIdNoLongerValid) := by
  simp [Tree.is_valid_node_id, hid, hs]

theorem is_valid_wrong_arena {T : Type} {t : Tree T} {nid : NodeId}
    (hid : nid.tree_id ≠ t.id) :
    t.is_valid_node_id nid = some (false, some NodeIdError.InvalidNodeIdForTree) := by
  simp [Tree.is_valid_node_id, hid]

theorem get_of_slot {T : Type} {t : Tree T} {nid : NodeId} {n : Node T}
    (hid : nid.tree_id = t.id) (hs : t.nodes[nid.index]? = some (some n)) :
    t.get nid = some (some n) := by
  simp [Tree.get, is_valid_of_slot hid hs, hs]

theorem get_stale {T : Type} {t : Tree T} {nid : NodeId}
    (hid : nid.tree_id = t.id) (hs : t.nodes[nid.index]? = some none) :
    t.get nid = some none := by
  simp [Tree.get, is_valid_stale hid hs]

theorem get_wrong_arena {T : Type} {t : Tree T} {nid : NodeId}
    (hid : nid.tree_id ≠ t.id) :
    t.get nid = some none := by
  simp [Tree.get, is_valid_wrong_arena hid]

theorem get_mut_eq_get {T : Type} (t : Tree T) (nid : NodeId) :
    t.get_mut nid = t.get nid := by
  simp [Tree.get, Tree.get_mut]

theorem of_is_valid_true {T : Type} {t : Tree T} {nid : NodeId} {e : Option NodeIdError}
    (h : t.is_valid_node_id nid = some (true, e)) :
    nid.tree_id = t.id ∧ ∃ m, t.nodes[nid.index]? = some (some m) := by
  rw [Tree.is_valid_node_id] at h
  by_cases hid : nid.tree_id = t.id
  · rw [if_neg (not_not_intro hid)] at h
    refine ⟨hid, ?_⟩
    cases hs : t.nodes[nid.index]? with
    | none => rw [hs] at h; exact Option.noConfusion h
    | some s =>
      cases s with
      | none => rw [hs] at h; simp at h
      | some m => exact ⟨m, rfl⟩
  · rw [if_pos hid] at h; simp at h

theorem of_get_some {T : Type} {t : Tree T} {nid : NodeId} {n : Node T}
    (h : t.get nid = some (some n)) :
    nid.tree_id = t.id ∧ t.nodes[nid.index]? = some (some n) := by
  rw [Tree.get] at h
  split at h
  · exact Option.noConfusion h
  · rename_i hv
    obtain ⟨hid, m, hs⟩ := of_is_valid_true hv
    rw [hs] at h
    injection h with h1
    injection h1 with h2
    rw [← h2]
    exact ⟨hid, hs⟩
  · simp at h

/-! ### Operation-level characterization lemmas -/

theorem swapRemove_length {a : Type} {l l2 : List a} {i : Nat} {x : a}
    (h : swapRemove l i = some (x, l2)) : l2.length + 1 = l.length := by
  cases hv : l[i]? with
  | none => simp only [swapRemove, hv] at h; exact Option.noConfusion h
  | some v =>
    cases hlast : l.getLast? with
    | none => simp only [swapRemove, hv, hlast] at h; exact Option.noConfusion h
    | some last =>
      simp only [swapRemove, hv, hlast, Option.some.injEq] at h
      have hlt : i < l.length := (List.getElem?_eq_some_iff.mp hv).1
      have h2 : (l.set i last).dropLast = l2 := congrArg Prod.snd h
      have h3 := congrArg List.length h2
      simp only [List.length_dropLast, List.length_set] at h3
      omega

theorem insert_new_node_fresh {T : Type} {t : Tree T} (n : Node T)
    (hfree : t.free_ids = []) :
    t.insert_new_node n =
      some ({ t with nodes := t.nodes ++ [some n] }, ⟨t.id, t.nodes.length⟩) := by
  simp [Tree.insert_new_node, hfree, Tree.new_node_id]

theorem insert_new_node_reuse {T : Type} {t : Tree T} (n : Node T) {old : NodeId}
    {fs : List NodeId}
    (hfree : t.free_ids = fs ++ [old])
    (hslot : t.nodes[old.index]? = some none) :
    t.insert_new_node n =
      some ({ t with nodes := t.nodes.set old.index (some n), free_ids := fs }, old) := by
  simp [Tree.insert_new_node, hfree, List.getLast?_concat, swapRemove_push (some n) hslot]

theorem set_as_parent_and_child_spec {T : Type} {t : Tree T} {pid cid : NodeId}
    {pn cn : Node T}
    (hp : t.get pid = some (some pn)) (hc : t.get cid = some (some cn))
    (hne : pid.index ≠ cid.index) :
    t.set_as_parent_and_child pid cid =
      some ⟨t.id, t.root,
        (t.nodes.set pid.index (some (pn.add_child cid))).set cid.index
          (some (cn.set_parent (some pid))), t.free_ids⟩ := by
  have hcid : cid.tree_id = t.id := (of_get_some hc).1
  have hcslot : t.nodes[cid.index]? = some (some cn) := (of_get_some hc).2
  have hc2 : ({ t with nodes := t.nodes.set pid.index (some (pn.add_child cid)) } :
      Tree T).get cid = some (some cn) :=
    get_of_slot hcid (by rw [List.getElem?_set_ne hne]; exact hcslot)
  simp only [Tree.set_as_parent_and_child, get_mut_eq_get, hp, hc2]

theorem remove_node_dirty_spec {T : Type} {t : Tree T} {nid : NodeId} {n : Node T}
    (hs : t.nodes[nid.index]? = some (some n)) :
    t.remove_node_dirty nid =
      some (⟨t.id, t.root, t.nodes.set nid.index none, t.free_ids ++ [nid]⟩, n) := by
  simp only [Tree.remove_node_dirty, swapRemove_push (none : Option (Node T)) hs]

/-! ### Claim C1: slot reuse and handle aliasing -/

/-- C1, counterexample.  Build the one-node arena holding 5, cascadingly
remove its root (freeing slot 0 and handle (0,0)), then insert value 6 via
set_root.  The freed slot is reused, the minted handle is the very handle
that was removed, and the OLD handle now validates successfully and `get`
returns the NEW value 6 - contradicting the claim that the old handle must
fail as StaleHandle and never return the new value. -/
theorem claim1_counterexample :
    (TreeBuilder.new.with_root (Node.new 5)).build 0 = builtFive ∧
    builtFive.remove_node_drop_children ⟨0, 0⟩ =
      some (freedFive, Except.ok (Node.new 5)) ∧
    freedFive.set_root (Node.new 6) = some (reusedSix, ⟨0, 0⟩) ∧
    reusedSix.is_valid_node_id ⟨0, 0⟩ = some (true, none) ∧
    reusedSix.get ⟨0, 0⟩ = some (some (Node.new 6)) :=
  ⟨rfl, rfl, rfl, rfl, rfl⟩

/-- C1, amended.  After a removal frees a slot, an insertion that reuses
the slot pops the freed handle itself from the free list: the minted new
handle is equal to the old handle (same stamp, same index).  The new
handle validates and `get` returns the new value; consequently the old
handle also validates successfully and returns the new value, rather than
failing as StaleHandle. -/
theorem claim1_amended {T : Type} (t : Tree T) (n : Node T) (old : NodeId)
    (fs : List NodeId)
    (hfree : t.free_ids = fs ++ [old])
    (hid : old.tree_id = t.id)
    (hslot : t.nodes[old.index]? = some none) :
    ∃ t2, t.insert_new_node n = some (t2, old) ∧
      t2.is_valid_node_id old = some (true, none) ∧
      t2.get old = some (some n) := by
  have hlt : old.index < t.nodes.length := (List.getElem?_eq_some_iff.mp hslot).1
  refine ⟨⟨t.id, t.root, t.nodes.set old.index (some n), fs⟩, ?_, ?_, ?_⟩
  · exact insert_new_node_reuse n hfree hslot
  · exact is_valid_of_slot hid (by simpa using List.getElem?_set_self hlt)
  · exact get_of_slot hid (by simpa using List.getElem?_set_self hlt)

/-- C1, witness for the amended theorem, on the concrete freed arena of
the counterexample. -/
theorem claim1_witness :
    ∃ t2, freedFive.insert_new_node (Node.new 6) = some (t2, ⟨0, 0⟩) ∧
      t2.is_valid_node_id ⟨0, 0⟩ = some (true, none) ∧
      t2.get ⟨0, 0⟩ = some (some (Node.new 6)) :=
  claim1_amended freedFive (Node.new 6) ⟨0, 0⟩ [] rfl rfl rfl

/-! ### Claim C2: the root-liveness invariant -/

/-- C2, violation.  `remove_node_orphan_children` never clears the root
pointer (src/tree.rs lines 360-367, contrast lines 324-326 of the
cascading removal).  Orphan-removing the root of the one-node arena built
with root 5 leaves `root_node_id` returning the old handle while `get` on
that handle returns None: the invariant that a present root refers to a
live slot is broken by a two-call sequence. -/
theorem claim2_violation :
    (TreeBuilder.new.with_root (Node.new 5)).build 0 = builtFive ∧
    builtFive.remove_node_orphan_children ⟨0, 0⟩ =
      some (danglingRoot, Except.ok (Node.new 5)) ∧
    danglingRoot.root_node_id = some ⟨0, 0⟩ ∧
    danglingRoot.get ⟨0, 0⟩ = some none :=
  ⟨rfl, rfl, rfl, rfl⟩

/-! ### Claim C3: orphaned children must stay removable without faults -/

/-- C3, violation.  Build the chain 0 - 1 - 2, orphan-remove the node
holding 1.  Its former child (the node holding 2) is still addressable,
but removing it - by either removal operation - panics: `remove_node`
looks up the stale parent handle and hits the explicit `panic!` branch
(src/tree.rs line 424, the `todo` edge case), modelled as `none`. -/
theorem claim3_violation :
    chainT_build = some chainT ∧
    chainT.remove_node_orphan_children ⟨0, 1⟩ =
      some (orphanB, Except.ok { data := 1, parent := some ⟨0, 0⟩,
                                 children := [⟨0, 2⟩] }) ∧
    orphanB.get ⟨0, 2⟩ =
      some (some { data := 2, parent := some ⟨0, 1⟩, children := [] }) ∧
    orphanB.remove_node_orphan_children ⟨0, 2⟩ = none ∧
    orphanB.remove_node_drop_children ⟨0, 2⟩ = none :=
  ⟨rfl, rfl, rfl, rfl, rfl⟩

/-! ### Claim C4: bidirectional parent and child consistency -/

/-- C4, violation.  The four-call sequence build(0), insert 1 under the
root, orphan-remove the root, insert 2 under the node holding 1 (reusing
freed slot 0), set_root 3 reaches `aliasRootT`: the node holding 1 is
live and lists handle (0,0) among its children, but the node stored at
(0,0) reports (0,2) - not the handle of the node holding 1 - as its
parent.  The bidirectional consistency invariant fails after a sequence
of the four listed operations. -/
theorem claim4_violation :
    aliasRootT_build = some aliasRootT ∧
    aliasRootT.get ⟨0, 1⟩ =
      some (some { data := 1, parent := some ⟨0, 0⟩, children := [⟨0, 0⟩] }) ∧
    aliasRootT.get ⟨0, 0⟩ =
      some (some { data := 2, parent := some ⟨0, 2⟩, children := [] }) ∧
    (some (⟨0, 2⟩ : NodeId) ≠ some (⟨0, 1⟩ : NodeId)) :=
  ⟨rfl, rfl, rfl, by decide⟩

/-! ### Claim C7: handle isolation between arenas -/

/-- C7.  A handle stamped by arena `a` fails validation on any arena `b`
with a different stamp, as InvalidNodeIdForTree (WrongArena), for every
handle-accepting operation, regardless of the contents of `b` (in
particular even if `b` holds a node at the same slot index). -/
theorem claim7_wrong_arena {T : Type} (a b : Tree T) (nid : NodeId)
    (hmint : nid.tree_id = a.id) (hdiff : a.id ≠ b.id) (n : Node T) :
    b.is_valid_node_id nid = some (false, some NodeIdError.InvalidNodeIdForTree) ∧
    b.get nid = some none ∧
    b.get_mut nid = some none ∧
    b.insert_with_parent n nid =
      some (b, Except.error NodeIdError.InvalidNodeIdForTree) ∧
    b.remove_node_drop_children nid =
      some (b, Except.error NodeIdError.InvalidNodeIdForTree) ∧
    b.remove_node_orphan_children nid =
      some (b, Except.error NodeIdError.InvalidNodeIdForTree) := by
  have hne : nid.tree_id ≠ b.id := by rw [hmint]; exact hdiff
  have hv := is_valid_wrong_arena (t := b) hne
  refine ⟨hv, get_wrong_arena hne, ?_, ?_, ?_, ?_⟩
  · rw [get_mut_eq_get]; exact get_wrong_arena hne
  · simp [Tree.insert_with_parent, hv]
  · simp [Tree.remove_node_drop_children, hv]
  · simp [Tree.remove_node_orphan_children, hv]

/-- C7, witness: arena `b` holds a node at slot index 0, and the foreign
handle also has slot index 0 but stamp 0; every operation of `b` rejects
it as InvalidNodeIdForTree. -/
theorem claim7_witness :
    ((TreeBuilder.new.with_root (Node.new 7)).build 1).is_valid_node_id ⟨0, 0⟩ =
      some (false, some NodeIdError.InvalidNodeIdForTree) ∧
    ((TreeBuilder.new.with_root (Node.new 7)).build 1).get ⟨0, 0⟩ = some none :=
  ⟨(claim7_wrong_arena (builtFive) ((TreeBuilder.new.with_root (Node.new 7)).build 1)
      ⟨0, 0⟩ rfl (by decide) (Node.new 9)).1,
   (claim7_wrong_arena (builtFive) ((TreeBuilder.new.with_root (Node.new 7)).build 1)
      ⟨0, 0⟩ rfl (by decide) (Node.new 9)).2.1⟩

/-! ### Claim C9: post-order traversal -/

/-- C9.  The post-order traversal satisfies the defining recursion
postorder(h) = postorder(child 1) ++ ... ++ postorder(child k) ++ [h]
(first two conjuncts), and on the eight-node hierarchy of the iterator
test (root 0 with children 1, 3, 4; 1 has child 2; 4 has children
5, 6, 7) traversal from the root yields values [2, 1, 3, 5, 6, 7, 4, 0],
from the node holding 4 yields [5, 6, 7, 4], and from the node holding 3
yields [3]. -/
theorem claim9_post_order :
    (∀ (T : Type) (fuel : Nat) (t : Tree T) (h : NodeId) (node : Node T)
        (l : List NodeId),
      t.get h = some (some node) →
      post_order_list fuel t node.children = some l →
      post_order_ids (fuel + 1) t h = some (l ++ [h])) ∧
    (∀ (T : Type) (fuel : Nat) (t : Tree T) (c : NodeId) (cs : List NodeId)
        (node : Node T) (l1 l2 : List NodeId),
      t.get c = some (some node) →
      post_order_list fuel t node.children = some l1 →
      post_order_list fuel t cs = some l2 →
      post_order_list (fuel + 1) t (c :: cs) = some ((l1 ++ [c]) ++ l2)) ∧
    eightT_build = some eightT ∧
    post_order_values eightT ⟨0, 0⟩ = some [2, 1, 3, 5, 6, 7, 4, 0] ∧
    post_order_values eightT ⟨0, 4⟩ = some [5, 6, 7, 4] ∧
    post_order_values eightT ⟨0, 3⟩ = some [3] := by
  refine ⟨?_, ?_, rfl, rfl, rfl, rfl⟩
  · intro T fuel t h node l hget hlist
    simp only [post_order_ids, hget, hlist]
  · intro T fuel t c cs node l1 l2 hget h1 h2
    simp only [post_order_list, hget, h1, h2]

/-- C9, witness: the defining recursion instantiated at the eight-node
arena and its root. -/
theorem claim9_witness :
    post_order_ids (9 + 1) eightT ⟨0, 0⟩ =
      some ([⟨0, 2⟩, ⟨0, 1⟩, ⟨0, 3⟩, ⟨0, 5⟩, ⟨0, 6⟩, ⟨0, 7⟩, ⟨0, 4⟩] ++ [⟨0, 0⟩]) :=
  claim9_post_order.1 Nat 9 eightT ⟨0, 0⟩
    { data := 0, parent := none, children := [⟨0, 1⟩, ⟨0, 3⟩, ⟨0, 4⟩] }
    [⟨0, 2⟩, ⟨0, 1⟩, ⟨0, 3⟩, ⟨0, 5⟩, ⟨0, 6⟩, ⟨0, 7⟩, ⟨0, 4⟩] rfl rfl

/-! ### Claim C8: set_root growth -/

/-- C8.  On an arena with a live root `r` (and a well-formed free list),
`set_root` with a fresh value makes the new node the root, returns its
handle, makes the prior root the sole child of the new root, only updates
the parent link of the prior root (its payload and children - hence its
whole subtree - are untouched, and every slot other than the new and the
prior root slot is unchanged), and never shrinks the slot vector. -/
theorem claim8_set_root {T : Type} (t : Tree T) (v : T) (r : NodeId) (rnode : Node T)
    (hroot : t.root = some r)
    (hrid : r.tree_id = t.id)
    (hrslot : t.nodes[r.index]? = some (some rnode))
    (hfree : ∀ f ∈ t.free_ids, f.tree_id = t.id ∧ t.nodes[f.index]? = some none) :
    ∃ t2 nid, t.set_root (Node.new v) = some (t2, nid) ∧
      t2.root_node_id = some nid ∧
      nid.index ≠ r.index ∧
      t2.get nid = some (some { data := v, parent := none, children := [r] }) ∧
      t2.get r = some (some { rnode with parent := some nid }) ∧
      (∀ j : NodeId, j.index ≠ nid.index → j.index ≠ r.index →
        t2.nodes[j.index]? = t.nodes[j.index]?) ∧
      t.nodes.length ≤ t2.nodes.length := by
  have hrlt : r.index < t.nodes.length := (List.getElem?_eq_some_iff.mp hrslot).1
  rcases List.eq_nil_or_concat t.free_ids with hnil | ⟨fs, old, hconcat⟩
  · -- fresh slot appended at index t.nodes.length
    have hne : t.nodes.length ≠ r.index := by omega
    have hins := insert_new_node_fresh (t := t) (Node.new v) hnil
    have hp : (⟨t.id, t.root, t.nodes ++ [some (Node.new v)], t.free_ids⟩ : Tree T).get
        ⟨t.id, t.nodes.length⟩ = some (some (Node.new v)) :=
      get_of_slot rfl (List.getElem?_concat_length t.nodes (some (Node.new v)))
    have hc : (⟨t.id, t.root, t.nodes ++ [some (Node.new v)], t.free_ids⟩ : Tree T).get r =
        some (some rnode) :=
      get_of_slot hrid (by rw [List.getElem?_append_left hrlt]; exact hrslot)
    have hsapc := set_as_parent_and_child_spec hp hc hne
    dsimp only at hsapc
    rw [hroot] at hsapc
    have hrun : t.set_root (Node.new v) =
        some (⟨t.id, some ⟨t.id, t.nodes.length⟩,
          ((t.nodes ++ [some (Node.new v)]).set t.nodes.length
              (some ((Node.new v).add_child r))).set r.index
              (some (rnode.set_parent (some ⟨t.id, t.nodes.length⟩))),
          t.free_ids⟩, ⟨t.id, t.nodes.length⟩) := by
      simp only [Tree.set_root, hins, hroot, hsapc]
    refine ⟨_, _, hrun, rfl, hne, ?_, ?_, ?_, ?_⟩
    · refine get_of_slot rfl ?_
      dsimp only
      rw [List.getElem?_set_ne (fun h => hne h.symm), List.getElem?_set_self (by simp)]
      rfl
    · refine get_of_slot hrid ?_
      dsimp only
      rw [List.getElem?_set_self
        (by simp only [List.length_set, List.length_append, List.length_cons,
          List.length_nil]; omega)]
      rfl
    · intro j hj1 hj2
      have hj1b : j.index ≠ t.nodes.length := hj1
      dsimp only
      rw [List.getElem?_set_ne (fun h => hj2 h.symm), List.getElem?_set_ne
        (fun h => hj1 h.symm)]
      by_cases hlt : j.index < t.nodes.length
      · rw [List.getElem?_append_left hlt]
      · have e1 : t.nodes[j.index]? = none := List.getElem?_eq_none (by omega)
        have e2 : (t.nodes ++ [some (Node.new v)])[j.index]? = none := by
          refine List.getElem?_eq_none ?_
          simp only [List.length_append, List.length_cons, List.length_nil]
          omega
        rw [e1, e2]
    · simp
  · -- reuse of the freed slot old
    rw [List.concat_eq_append] at hconcat
    have hmem : old ∈ t.free_ids := by rw [hconcat]; simp
    obtain ⟨hoid, hoslot⟩ := hfree old hmem
    have holt : old.index < t.nodes.length := (List.getElem?_eq_some_iff.mp hoslot).1
    have hne : old.index ≠ r.index := by
      intro h
      rw [h, hrslot] at hoslot
      simp at hoslot
    have hins := insert_new_node_reuse (t := t) (Node.new v) hconcat hoslot
    have hp : (⟨t.id, t.root, t.nodes.set old.index (some (Node.new v)), fs⟩ : Tree T).get
        old = some (some (Node.new v)) :=
      get_of_slot hoid (by rw [List.getElem?_set_self holt])
    have hc : (⟨t.id, t.root, t.nodes.set old.index (some (Node.new v)), fs⟩ : Tree T).get
        r = some (some rnode) :=
      get_of_slot hrid (by rw [List.getElem?_set_ne hne]; exact hrslot)
    have hsapc := set_as_parent_and_child_spec hp hc hne
    dsimp only at hsapc
    rw [hroot] at hsapc
    have hrun : t.set_root (Node.new v) =
        some (⟨t.id, some old,
          ((t.nodes.set old.index (some (Node.new v))).set old.index
              (some ((Node.new v).add_child r))).set r.index
              (some (rnode.set_parent (some old))), fs⟩, old) := by
      simp only [Tree.set_root, hins, hroot, hsapc]
    refine ⟨_, _, hrun, rfl, hne, ?_, ?_, ?_, ?_⟩
    · refine get_of_slot hoid ?_
      rw [List.getElem?_set_ne (fun h => hne h.symm),
        List.getElem?_set_self (by simp only [List.length_set]; exact holt)]
      rfl
    · refine get_of_slot hrid ?_
      rw [List.getElem?_set_self (by simp only [List.length_set]; exact hrlt)]
      rfl
    · intro j hj1 hj2
      rw [List.getElem?_set_ne (fun h => hj2 h.symm),
        List.getElem?_set_ne (fun h => hj1 h.symm),
        List.getElem?_set_ne (fun h => hj1 h.symm)]
    · simp

/-- C8, witness: on the one-node arena holding 5, set_root 6 mints handle
(0,1), makes it the root, and the prior root becomes its sole child. -/
theorem claim8_witness :
    ∃ t2 nid, builtFive.set_root (Node.new 6) = some (t2, nid) ∧
      t2.root_node_id = some nid ∧
      nid.index ≠ (⟨0, 0⟩ : NodeId).index ∧
      t2.get nid = some (some { data := 6, parent := none, children := [⟨0, 0⟩] }) ∧
      t2.get ⟨0, 0⟩ = some (some { data := 5, parent := some nid, children := [] }) ∧
      (∀ j : NodeId, j.index ≠ nid.index → j.index ≠ (⟨0, 0⟩ : NodeId).index →
        t2.nodes[j.index]? = builtFive.nodes[j.index]?) ∧
      builtFive.nodes.length ≤ t2.nodes.length :=
  claim8_set_root builtFive 6 ⟨0, 0⟩ (Node.new 5) rfl rfl rfl (by simp [builtFive])

/-! ### Claim C6: orphaning removal -/

/-- C6, counterexample.  Orphan-remove the root of the chain 0 - 1 - 2:
this succeeds and orphans the node holding 1 (its parent handle is now
stale).  That node is a valid handle whose node has children, yet
`remove_node_orphan_children` on it does not return the node with its
children intact - it panics (`none`), because detaching it from its stale
parent hits the `panic!` branch of `remove_node`.  The claim as stated,
quantifying over every tree and every valid handle with children, is
false. -/
theorem claim6_counterexample :
    chainT_build = some chainT ∧
    chainT.remove_node_orphan_children ⟨0, 0⟩ =
      some (orphanA, Except.ok { data := 0, parent := none, children := [⟨0, 1⟩] }) ∧
    orphanA.get ⟨0, 1⟩ =
      some (some { data := 1, parent := some ⟨0, 0⟩, children := [⟨0, 2⟩] }) ∧
    orphanA.remove_node_orphan_children ⟨0, 1⟩ = none :=
  ⟨rfl, rfl, rfl, rfl⟩

/-- C6, amended.  For a valid handle whose node has children, whose
children lists are arena-consistent (each child handle carries the arena
stamp, names a slot other than the removed one, and its node reports the
removed handle as parent), and whose own parent link is absent or refers
to a live slot other than the removed one (this proviso is forced by the
counterexample: with a stale parent link the removal panics),
`remove_node_orphan_children` returns the removed node with its children
list intact, the removed handle goes stale, and each child is still
retrievable by its original handle with its parent link still pointing at
the now-stale removed handle. -/
theorem claim6_amended {T : Type} (t : Tree T) (nid : NodeId) (node : Node T)
    (hget : t.get nid = some (some node))
    (hchildren : node.children ≠ [])
    (hkids : ∀ c ∈ node.children, c.tree_id = t.id ∧ c.index ≠ nid.index ∧
      ∃ cn : Node T, t.nodes[c.index]? = some (some cn) ∧ cn.parent = some nid)
    (hparent : node.parent = none ∨ ∃ p pn, node.parent = some p ∧
      p.tree_id = t.id ∧ p.index ≠ nid.index ∧ t.nodes[p.index]? = some (some pn)) :
    ∃ t2, t.remove_node_orphan_children nid = some (t2, Except.ok node) ∧
      t2.get nid = some none ∧
      ∀ c ∈ node.children, ∃ cn2 : Node T, t2.get c = some (some cn2) ∧
        cn2.parent = some nid := by
  obtain ⟨hid, hslot⟩ := of_get_some hget
  have hlt : nid.index < t.nodes.length := (List.getElem?_eq_some_iff.mp hslot).1
  have hvalid := is_valid_of_slot hid hslot
  have hdirty := remove_node_dirty_spec hslot
  rcases hparent with hpn | ⟨p, pn, hpe, hpid, hpne, hpslot⟩
  · have hrn : t.remove_node nid =
        some (⟨t.id, t.root, t.nodes.set nid.index none, t.free_ids ++ [nid]⟩, node) := by
      rw [Tree.remove_node, hdirty]
      dsimp only
      rw [hpn]
    have hrun : t.remove_node_orphan_children nid =
        some (⟨t.id, t.root, t.nodes.set nid.index none, t.free_ids ++ [nid]⟩,
          Except.ok node) := by
      rw [Tree.remove_node_orphan_children, hvalid]
      dsimp only
      rw [if_neg (by simp), hrn]
    refine ⟨_, hrun, ?_, ?_⟩
    · exact get_stale hid (by rw [List.getElem?_set_self hlt])
    · intro c hc
      obtain ⟨hcid, hcne, cn, hcslot, hcp⟩ := hkids c hc
      exact ⟨cn, get_of_slot hcid
        (by rw [List.getElem?_set_ne (fun h => hcne h.symm)]; exact hcslot), hcp⟩
  · have hplt : p.index < t.nodes.length := (List.getElem?_eq_some_iff.mp hpslot).1
    have hpget : (⟨t.id, t.root, t.nodes.set nid.index none,
        t.free_ids ++ [nid]⟩ : Tree T).get p = some (some pn) :=
      get_of_slot hpid (by rw [List.getElem?_set_ne (fun h => hpne h.symm)]; exact hpslot)
    have hrn : t.remove_node nid =
        some (⟨t.id, t.root, (t.nodes.set nid.index none).set p.index
          (some { pn with children := pn.children.filter (fun c => decide (c ≠ nid)) }),
          t.free_ids ++ [nid]⟩, node) := by
      rw [Tree.remove_node, hdirty]
      dsimp only
      rw [hpe]
      dsimp only
      rw [get_mut_eq_get, hpget]
    have hrun : t.remove_node_orphan_children nid =
        some (⟨t.id, t.root, (t.nodes.set nid.index none).set p.index
          (some { pn with children := pn.children.filter (fun c => decide (c ≠ nid)) }),
          t.free_ids ++ [nid]⟩, Except.ok node) := by
      rw [Tree.remove_node_orphan_children, hvalid]
      dsimp only
      rw [if_neg (by simp), hrn]
    refine ⟨_, hrun, ?_, ?_⟩
    · refine get_stale hid ?_
      rw [List.getElem?_set_ne hpne, List.getElem?_set_self hlt]
    · intro c hc
      obtain ⟨hcid, hcne, cn, hcslot, hcp⟩ := hkids c hc
      by_cases hcpi : c.index = p.index
      · have hcnpn : cn = pn := by
          rw [hcpi, hpslot] at hcslot
          injection hcslot with h1
          injection h1 with h2
          exact h2.symm
        refine ⟨{ pn with children := pn.children.filter (fun c => decide (c ≠ nid)) },
          get_of_slot hcid ?_, ?_⟩
        · rw [hcpi]
          exact List.getElem?_set_self (by simp only [List.length_set]; exact hplt)
        · show pn.parent = some nid
          rw [← hcnpn]
          exact hcp
      · refine ⟨cn, get_of_slot hcid ?_, hcp⟩
        rw [List.getElem?_set_ne (fun h => hcpi h.symm),
          List.getElem?_set_ne (fun h => hcne h.symm)]
        exact hcslot

/-- C6, witness: orphan-removing the root of the chain 0 - 1 - 2 (parent
link absent) leaves its child retrievable with the stale parent link. -/
theorem claim6_witness :
    ∃ t2, chainT.remove_node_orphan_children ⟨0, 0⟩ =
        some (t2, Except.ok { data := 0, parent := none, children := [⟨0, 1⟩] }) ∧
      t2.get ⟨0, 0⟩ = some none ∧
      ∀ c ∈ ((⟨0, none, [⟨0, 1⟩]⟩ : Node Nat)).children,
        ∃ cn2 : Node Nat, t2.get c = some (some cn2) ∧ cn2.parent = some ⟨0, 0⟩ :=
  claim6_amended chainT ⟨0, 0⟩ { data := 0, parent := none, children := [⟨0, 1⟩] }
    rfl (by simp)
    (by
      intro c hc
      simp only [List.mem_singleton] at hc
      subst hc
      exact ⟨rfl, by decide,
        ⟨{ data := 1, parent := some ⟨0, 0⟩, children := [⟨0, 2⟩] }, rfl, rfl⟩⟩)
    (Or.inl rfl)

/-! ### Claim C5: cascading removal, counterexample part -/

/-- C5, counterexample.  In the chain 0 - 1 - 2 with the middle node
orphan-removed, the node holding 2 is a valid handle with zero
descendants (its post-order list is [itself]), so the claim promises that
`remove_node_drop_children` removes exactly one live node and returns the
node.  Instead the call panics (`none`): the final detach-from-parent
step looks up the stale parent handle and hits the `panic!` branch of
`remove_node`. -/
theorem claim5_counterexample :
    chainT_build = some chainT ∧
    chainT.remove_node_orphan_children ⟨0, 1⟩ =
      some (orphanB, Except.ok { data := 1, parent := some ⟨0, 0⟩,
                                 children := [⟨0, 2⟩] }) ∧
    orphanB.traverse_post_order_ids ⟨0, 2⟩ = some [⟨0, 2⟩] ∧
    orphanB.remove_node_drop_children ⟨0, 2⟩ = none :=
  ⟨rfl, rfl, rfl, rfl⟩

/-! ### Length and shape lemmas for every operation -/

theorem remove_node_dirty_shape {T : Type} {t t2 : Tree T} {nid : NodeId} {n : Node T}
    (h : t.remove_node_dirty nid = some (t2, n)) :
    t2.nodes.length = t.nodes.length ∧ t2.id = t.id ∧ t2.root = t.root := by
  rw [Tree.remove_node_dirty] at h
  cases hsw : swapRemove (t.nodes ++ [none]) nid.index with
  | none => simp [hsw] at h
  | some pr =>
    obtain ⟨slot, nodes2⟩ := pr
    simp only [hsw] at h
    cases slot with
    | none => simp at h
    | some m =>
      simp only [Option.some.injEq, Prod.mk.injEq] at h
      obtain ⟨h1, _⟩ := h
      subst h1
      have hL := swapRemove_length hsw
      simp only [List.length_append, List.length_cons, List.length_nil] at hL
      refine ⟨?_, rfl, rfl⟩
      dsimp only
      omega

theorem set_as_parent_and_child_shape {T : Type} {t t2 : Tree T} {p c : NodeId}
    (h : t.set_as_parent_and_child p c = some t2) :
    t2.nodes.length = t.nodes.length ∧ t2.id = t.id ∧ t2.root = t.root ∧
      t2.free_ids = t.free_ids := by
  simp only [Tree.set_as_parent_and_child] at h
  split at h
  · split at h
    · simp only [Option.some.injEq] at h
      subst h
      exact ⟨by simp, rfl, rfl, rfl⟩
    · exact Option.noConfusion h
  · exact Option.noConfusion h

theorem insert_new_node_shape {T : Type} {t t2 : Tree T} {n : Node T} {nid : NodeId}
    (h : t.insert_new_node n = some (t2, nid)) :
    t.nodes.length ≤ t2.nodes.length ∧ t2.id = t.id ∧ t2.root = t.root := by
  simp only [Tree.insert_new_node] at h
  split at h
  · split at h
    · exact Option.noConfusion h
    · split at h
      · exact Option.noConfusion h
      · rename_i nid0 hlast fst nodes2 hsw
        simp only [Option.some.injEq, Prod.mk.injEq] at h
        obtain ⟨h1, _⟩ := h
        subst h1
        have hL := swapRemove_length hsw
        simp only [List.length_append, List.length_cons, List.length_nil] at hL
        refine ⟨?_, rfl, rfl⟩
        dsimp only
        omega
  · simp only [Option.some.injEq, Prod.mk.injEq] at h
    obtain ⟨h1, _⟩ := h
    subst h1
    exact ⟨by simp, rfl, rfl⟩

theorem remove_node_shape {T : Type} {t t2 : Tree T} {nid : NodeId} {n : Node T}
    (h : t.remove_node nid = some (t2, n)) :
    t2.nodes.length = t.nodes.length ∧ t2.id = t.id ∧ t2.root = t.root := by
  simp only [Tree.remove_node] at h
  split at h
  · exact Option.noConfusion h
  · rename_i t1 node hdirty
    obtain ⟨hd1, hd2, hd3⟩ := remove_node_dirty_shape hdirty
    split at h
    · simp only [Option.some.injEq, Prod.mk.injEq] at h
      obtain ⟨h1, _⟩ := h
      subst h1
      exact ⟨hd1, hd2, hd3⟩
    · split at h
      · rename_i pid parent_node hget
        simp only [Option.some.injEq, Prod.mk.injEq] at h
        obtain ⟨h1, _⟩ := h
        subst h1
        exact ⟨by simp [hd1], hd2, hd3⟩
      · exact Option.noConfusion h

theorem drop_children_list_shape {T : Type} : ∀ (fuel : Nat) (t : Tree T)
    (cs : List NodeId) (t2 : Tree T), Tree.drop_children_list fuel t cs = some t2 →
    t2.nodes.length = t.nodes.length ∧ t2.id = t.id ∧ t2.root = t.root := by
  intro fuel
  induction fuel with
  | zero =>
    intro t cs t2 h
    cases cs with
    | nil =>
        injection h with h1
        subst h1
        exact ⟨rfl, rfl, rfl⟩
    | cons c rest => exact Option.noConfusion h
  | succ f ih =>
    intro t cs t2 h
    cases cs with
    | nil =>
        injection h with h1
        subst h1
        exact ⟨rfl, rfl, rfl⟩
    | cons c rest =>
      simp only [Tree.drop_children_list] at h
      split at h
      · rename_i node hg
        split at h
        · exact Option.noConfusion h
        · rename_i t1 hd
          split at h
          · exact Option.noConfusion h
          · rename_i pr t1b m hdd
            obtain ⟨l1, l2, l3⟩ := ih t node.children t1 hd
            obtain ⟨m1, m2, m3⟩ := remove_node_dirty_shape hdd
            obtain ⟨r1, r2, r3⟩ := ih t1b rest t2 h
            refine ⟨by omega, by rw [r2, m2, l2], by rw [r3, m3, l3]⟩
      · exact Option.noConfusion h

theorem drop_children_recursive_shape {T : Type} {fuel : Nat} {t t2 : Tree T}
    {nid : NodeId} (h : Tree.drop_children_recursive fuel t nid = some t2) :
    t2.nodes.length = t.nodes.length ∧ t2.id = t.id ∧ t2.root = t.root := by
  cases fuel with
  | zero => exact Option.noConfusion h
  | succ f =>
    simp only [Tree.drop_children_recursive] at h
    split at h
    · exact drop_children_list_shape f t _ t2 h
    · exact Option.noConfusion h

theorem set_root_shape {T : Type} {t t2 : Tree T} {n : Node T} {nid : NodeId}
    (h : t.set_root n = some (t2, nid)) : t.nodes.length ≤ t2.nodes.length := by
  simp only [Tree.set_root] at h
  split at h
  · exact Option.noConfusion h
  · rename_i t1 rid hins
    have hi := insert_new_node_shape hins
    split at h
    · split at h
      · exact Option.noConfusion h
      · rename_i cur tsap hsap
        have hs := set_as_parent_and_child_shape hsap
        simp only [Option.some.injEq, Prod.mk.injEq] at h
        obtain ⟨h1, _⟩ := h
        subst h1
        simp only []
        omega
    · simp only [Option.some.injEq, Prod.mk.injEq] at h
      obtain ⟨h1, _⟩ := h
      subst h1
      simp only []
      omega

theorem insert_with_parent_shape {T : Type} {t t2 : Tree T} {n : Node T}
    {pid : NodeId} {res : Except NodeIdError NodeId}
    (h : t.insert_with_parent n pid = some (t2, res)) :
    t.nodes.length ≤ t2.nodes.length := by
  simp only [Tree.insert_with_parent] at h
  split at h
  · exact Option.noConfusion h
  · split at h
    · split at h
      · exact Option.noConfusion h
      · simp only [Option.some.injEq, Prod.mk.injEq] at h
        obtain ⟨h1, _⟩ := h
        subst h1
        omega
    · split at h
      · exact Option.noConfusion h
      · rename_i t1 cid hins
        have hi := insert_new_node_shape hins
        split at h
        · exact Option.noConfusion h
        · rename_i tsap hsap
          have hs := set_as_parent_and_child_shape hsap
          simp only [Option.some.injEq, Prod.mk.injEq] at h
          obtain ⟨h1, _⟩ := h
          subst h1
          omega

theorem remove_node_drop_children_shape {T : Type} {t t2 : Tree T} {nid : NodeId}
    {res : Except NodeIdError (Node T)}
    (h : t.remove_node_drop_children nid = some (t2, res)) :
    t2.nodes.length = t.nodes.length := by
  simp only [Tree.remove_node_drop_children] at h
  split at h
  · exact Option.noConfusion h
  · split at h
    · split at h
      · exact Option.noConfusion h
      · simp only [Option.some.injEq, Prod.mk.injEq] at h
        obtain ⟨h1, _⟩ := h
        subst h1
        rfl
    · split at h
      · exact Option.noConfusion h
      · rename_i t1 hdrop
        have hd := drop_children_recursive_shape hdrop
        split at h
        · exact Option.noConfusion h
        · rename_i t1b node hrm
          have hr := remove_node_shape hrm
          simp only [Option.some.injEq, Prod.mk.injEq] at h
          obtain ⟨h1, _⟩ := h
          subst h1
          have : (if t.is_root_node nid then { t with root := none } else t).nodes.length
              = t.nodes.length := by
            split <;> rfl
          omega

theorem remove_node_orphan_children_shape {T : Type} {t t2 : Tree T} {nid : NodeId}
    {res : Except NodeIdError (Node T)}
    (h : t.remove_node_orphan_children nid = some (t2, res)) :
    t2.nodes.length = t.nodes.length := by
  simp only [Tree.remove_node_orphan_children] at h
  split at h
  · exact Option.noConfusion h
  · split at h
    · split at h
      · exact Option.noConfusion h
      · simp only [Option.some.injEq, Prod.mk.injEq] at h
        obtain ⟨h1, _⟩ := h
        subst h1
        rfl
    · split at h
      · exact Option.noConfusion h
      · rename_i t1 node hrm
        simp only [Option.some.injEq, Prod.mk.injEq] at h
        obtain ⟨h1, _⟩ := h
        subst h1
        exact (remove_node_shape hrm).1

/-! ### Claim C10: slot-vector monotonicity and in-bounds handles -/

/-- C10.  The slot vector never shrinks: insertion operations can only
grow it and both removal operations preserve its length exactly (removal
replaces slot contents via push-then-swap_remove).  Handles minted by the
tree carry its stamp and index within the current bounds, and for any
stamp-matching in-bounds handle the validation routine returns a value
(its out-of-bounds panic branch, the `none` result, is unreachable). -/
theorem claim10_slot_monotone :
    (∀ (T : Type) (t t2 : Tree T) (n : Node T) (nid : NodeId),
      t.insert_new_node n = some (t2, nid) → t.nodes.length ≤ t2.nodes.length) ∧
    (∀ (T : Type) (t t2 : Tree T) (n : Node T) (nid : NodeId),
      t.set_root n = some (t2, nid) → t.nodes.length ≤ t2.nodes.length) ∧
    (∀ (T : Type) (t t2 : Tree T) (n : Node T) (pid : NodeId)
        (res : Except NodeIdError NodeId),
      t.insert_with_parent n pid = some (t2, res) →
      t.nodes.length ≤ t2.nodes.length) ∧
    (∀ (T : Type) (t t2 : Tree T) (nid : NodeId) (res : Except NodeIdError (Node T)),
      t.remove_node_drop_children nid = some (t2, res) →
      t2.nodes.length = t.nodes.length) ∧
    (∀ (T : Type) (t t2 : Tree T) (nid : NodeId) (res : Except NodeIdError (Node T)),
      t.remove_node_orphan_children nid = some (t2, res) →
      t2.nodes.length = t.nodes.length) ∧
    (∀ (T : Type) (t t2 : Tree T) (n : Node T) (nid : NodeId),
      (∀ f ∈ t.free_ids, f.index < t.nodes.length ∧ f.tree_id = t.id) →
      t.insert_new_node n = some (t2, nid) →
      nid.tree_id = t.id ∧ nid.index < t2.nodes.length) ∧
    (∀ (T : Type) (t : Tree T) (nid : NodeId), nid.tree_id = t.id →
      nid.index < t.nodes.length → ∃ r, t.is_valid_node_id nid = some r) := by
  refine ⟨?_, ?_, ?_, ?_, ?_, ?_, ?_⟩
  · intro T t t2 n nid h
    exact (insert_new_node_shape h).1
  · intro T t t2 n nid h
    exact set_root_shape h
  · intro T t t2 n pid res h
    exact insert_with_parent_shape h
  · intro T t t2 nid res h
    exact remove_node_drop_children_shape h
  · intro T t t2 nid res h
    exact remove_node_orphan_children_shape h
  · intro T t t2 n nid hfree h
    simp only [Tree.insert_new_node] at h
    split at h
    · split at h
      · exact Option.noConfusion h
      · rename_i nid0 hlast
        split at h
        · exact Option.noConfusion h
        · rename_i fst nodes2 hsw
          simp only [Option.some.injEq, Prod.mk.injEq] at h
          obtain ⟨h1, h2⟩ := h
          subst h1
          subst h2
          have hmem : nid0 ∈ t.free_ids := List.mem_of_mem_getLast? hlast
          obtain ⟨hb, hid⟩ := hfree nid0 hmem
          have hL := swapRemove_length hsw
          simp only [List.length_append, List.length_cons, List.length_nil] at hL
          refine ⟨hid, ?_⟩
          dsimp only
          omega
    · simp only [Option.some.injEq, Prod.mk.injEq] at h
      obtain ⟨h1, h2⟩ := h
      subst h1
      subst h2
      refine ⟨rfl, ?_⟩
      simp [Tree.new_node_id]
  · intro T t nid h1 h2
    rw [Tree.is_valid_node_id, if_neg (not_not_intro h1)]
    cases hs : t.nodes[nid.index]? with
    | none =>
        rw [List.getElem?_eq_none_iff] at hs
        omega
    | some s => cases s <;> exact ⟨_, rfl⟩

/-- C10, witness: the in-bounds guarantees instantiated on the one-node
arena and the handle it minted. -/
theorem claim10_witness :
    ((⟨0, 0⟩ : NodeId).tree_id = builtFive.id ∧
      (⟨0, 0⟩ : NodeId).index < builtFive.nodes.length) ∧
    ∃ r, builtFive.is_valid_node_id ⟨0, 0⟩ = some r :=
  ⟨⟨rfl, by decide⟩,
    claim10_slot_monotone.2.2.2.2.2.2 Nat builtFive ⟨0, 0⟩ rfl (by decide)⟩

/-! ### Structure of defined post-order computations -/

theorem post_order_list_nil_inv {T : Type} {fuel : Nat} {t : Tree T} {ids : List NodeId}
    (h : post_order_list fuel t [] = some ids) : ids = [] := by
  cases fuel with
  | zero => injection h with h1; exact h1.symm
  | succ f => injection h with h1; exact h1.symm

theorem post_order_list_cons_inv {T : Type} {fuel : Nat} {t : Tree T} {c : NodeId}
    {rest ids : List NodeId} (h : post_order_list fuel t (c :: rest) = some ids) :
    ∃ f node l1 l2, fuel = f + 1 ∧ t.get c = some (some node) ∧
      post_order_list f t node.children = some l1 ∧
      post_order_list f t rest = some l2 ∧ ids = (l1 ++ [c]) ++ l2 := by
  cases fuel with
  | zero => exact Option.noConfusion h
  | succ f =>
    simp only [post_order_list] at h
    split at h
    · rename_i node hg
      split at h
      · exact Option.noConfusion h
      · rename_i l1 h1
        split at h
        · exact Option.noConfusion h
        · rename_i l2 h2
          injection h with h3
          exact ⟨f, node, l1, l2, rfl, hg, h1, h2, h3.symm⟩
    · exact Option.noConfusion h

theorem post_order_ids_inv {T : Type} {fuel : Nat} {t : Tree T} {nid : NodeId}
    {ids : List NodeId} (h : post_order_ids fuel t nid = some ids) :
    ∃ f node l, fuel = f + 1 ∧ t.get nid = some (some node) ∧
      post_order_list f t node.children = some l ∧ ids = l ++ [nid] := by
  cases fuel with
  | zero => exact Option.noConfusion h
  | succ f =>
    simp only [post_order_ids] at h
    split at h
    · rename_i node hg
      split at h
      · exact Option.noConfusion h
      · rename_i l h1
        injection h with h2
        exact ⟨f, node, l, rfl, hg, h1, h2.symm⟩
    · exact Option.noConfusion h

theorem post_order_ids_build {T : Type} {f : Nat} {t : Tree T} {nid : NodeId}
    {node : Node T} {l : List NodeId}
    (hg : t.get nid = some (some node))
    (hl : post_order_list f t node.children = some l) :
    post_order_ids (f + 1) t nid = some (l ++ [nid]) := by
  simp only [post_order_ids, hg, hl]

theorem get_fun {T : Type} {t : Tree T} {nid : NodeId} {n1 n2 : Node T}
    (h1 : t.get nid = some (some n1)) (h2 : t.get nid = some (some n2)) : n1 = n2 := by
  rw [h1] at h2
  injection h2 with h3
  injection h3

theorem post_order_list_fuel_irrel : ∀ (f1 : Nat) {T : Type} (f2 : Nat) (t : Tree T)
    (cs l1 l2 : List NodeId), post_order_list f1 t cs = some l1 →
    post_order_list f2 t cs = some l2 → l1 = l2 := by
  intro f1
  induction f1 using Nat.strong_induction_on with
  | _ f1 ih =>
    intro T f2 t cs l1 l2 h1 h2
    cases cs with
    | nil => rw [post_order_list_nil_inv h1, post_order_list_nil_inv h2]
    | cons c rest =>
      obtain ⟨a, node, la1, la2, rfl, hg1, hc1, hr1, rfl⟩ := post_order_list_cons_inv h1
      obtain ⟨b, node2, lb1, lb2, hf2, hg2, hc2, hr2, rfl⟩ := post_order_list_cons_inv h2
      have hnode : node2 = node := get_fun hg2 hg1
      subst hnode
      rw [ih a (Nat.lt_succ_self a) b t node2.children la1 lb1 hc1 hc2,
        ih a (Nat.lt_succ_self a) b t rest la2 lb2 hr1 hr2]

theorem post_order_ids_fuel_irrel {T : Type} {f1 f2 : Nat} {t : Tree T} {nid : NodeId}
    {l1 l2 : List NodeId} (h1 : post_order_ids f1 t nid = some l1)
    (h2 : post_order_ids f2 t nid = some l2) : l1 = l2 := by
  obtain ⟨a, node, la, rfl, hg1, hc1, rfl⟩ := post_order_ids_inv h1
  obtain ⟨b, node2, lb, hf2, hg2, hc2, rfl⟩ := post_order_ids_inv h2
  have hnode : node2 = node := get_fun hg2 hg1
  subst hnode
  rw [post_order_list_fuel_irrel a b t node2.children la lb hc1 hc2]

theorem mem_post_order_list_decomp : ∀ (fuel : Nat) {T : Type} (t : Tree T)
    (cs ids : List NodeId), post_order_list fuel t cs = some ids →
    ∀ x ∈ ids, ∃ c, c ∈ cs ∧ ∃ fc sub, fc ≤ fuel ∧ post_order_ids fc t c = some sub ∧
      x ∈ sub ∧ ∀ y ∈ sub, y ∈ ids := by
  intro fuel
  induction fuel using Nat.strong_induction_on with
  | _ fuel ih =>
    intro T t cs ids h x hx
    cases cs with
    | nil =>
      rw [post_order_list_nil_inv h] at hx
      exact absurd hx (List.not_mem_nil x)
    | cons c rest =>
      obtain ⟨f, node, l1, l2, rfl, hg, hc1, hr1, rfl⟩ := post_order_list_cons_inv h
      rcases List.mem_append.mp hx with hx1 | hx2
      · refine ⟨c, List.mem_cons_self c rest, f + 1, l1 ++ [c], Nat.le_refl _,
          post_order_ids_build hg hc1, hx1, ?_⟩
        intro y hy
        exact List.mem_append.mpr (Or.inl hy)
      · obtain ⟨d, hd, fc, sub, hfc, hdef, hxs, hsubset⟩ :=
          ih f (Nat.lt_succ_self f) t rest l2 hr1 x hx2
        refine ⟨d, List.mem_cons_of_mem c hd, fc, sub, Nat.le_succ_of_le hfc, hdef, hxs, ?_⟩
        intro y hy
        exact List.mem_append.mpr (Or.inr (hsubset y hy))

theorem mem_post_order_ids_defined : ∀ (fuel : Nat) {T : Type} (t : Tree T)
    (d : NodeId) (ids : List NodeId), post_order_ids fuel t d = some ids →
    ∀ x ∈ ids, ∃ fx subx, fx ≤ fuel ∧ post_order_ids fx t x = some subx := by
  intro fuel
  induction fuel using Nat.strong_induction_on with
  | _ fuel ih =>
    intro T t d ids h x hx
    obtain ⟨f, node, l, rfl, hg, hl, rfl⟩ := post_order_ids_inv h
    rcases List.mem_append.mp hx with hx1 | hx2
    · obtain ⟨c, hc, fc, sub, hfc, hdef, hxs, hsubset⟩ :=
        mem_post_order_list_decomp f t node.children l hl x hx1
      obtain ⟨fx, subx, hfx, hdx⟩ :=
        ih fc (Nat.lt_succ_of_le hfc) t c sub hdef x hxs
      exact ⟨fx, subx, Nat.le_succ_of_le (Nat.le_trans hfx hfc), hdx⟩
    · rw [List.mem_singleton] at hx2
      subst hx2
      exact ⟨f + 1, l ++ [x], Nat.le_refl _, h⟩

theorem mem_post_order_ids_get : ∀ (fuel : Nat) {T : Type} (t : Tree T) (d : NodeId)
    (ids : List NodeId), post_order_ids fuel t d = some ids →
    ∀ x ∈ ids, ∃ nx, t.get x = some (some nx) := by
  intro fuel T t d ids h x hx
  obtain ⟨fx, subx, _, hdx⟩ := mem_post_order_ids_defined fuel t d ids h x hx
  obtain ⟨f, node, l, _, hg, _, _⟩ := post_order_ids_inv hdx
  exact ⟨node, hg⟩

theorem post_order_ids_no_self : ∀ (fuel : Nat) {T : Type} (t : Tree T) (d : NodeId)
    (ids : List NodeId), post_order_ids fuel t d = some ids → d ∉ ids.dropLast := by
  intro fuel
  induction fuel using Nat.strong_induction_on with
  | _ fuel ih =>
    intro T t d ids h hmem
    obtain ⟨f, node, l, rfl, hg, hl, rfl⟩ := post_order_ids_inv h
    rw [List.dropLast_concat] at hmem
    obtain ⟨c, hc, fc, sub, hfc, hdef, hxs, hsubset⟩ :=
      mem_post_order_list_decomp f t node.children l hl d hmem
    obtain ⟨fx, subx, hfx, hdx⟩ := mem_post_order_ids_defined fc t c sub hdef d hxs
    have hsame : subx = l ++ [d] := post_order_ids_fuel_irrel hdx h
    refine ih fx (Nat.lt_succ_of_le (Nat.le_trans hfx hfc)) t d subx hdx ?_
    rw [hsame, List.dropLast_concat]
    exact hmem

/-! ### Parent chains inside a defined post-order computation -/

theorem upIter_snoc {T : Type} {t : Tree T} : ∀ (m : Nat) (x y z : NodeId),
    upIter t m x = some y → parent_handle t y = some z →
    upIter t (m + 1) x = some z := by
  intro m
  induction m with
  | zero =>
    intro x y z h hp
    injection h with h1
    subst h1
    simp only [upIter, hp]
  | succ m ih =>
    intro x y z h hp
    cases hpx : parent_handle t x with
    | none =>
      simp only [upIter, hpx] at h
      exact Option.noConfusion h
    | some p =>
      simp only [upIter, hpx] at h ⊢
      exact ih p y z h hp

theorem chain_to_root : ∀ (fuel : Nat) {T : Type} (t : Tree T) (d : NodeId)
    (ids : List NodeId), children_consistent t → post_order_ids fuel t d = some ids →
    ∀ x ∈ ids, ∃ n, upIter t n x = some d ∧
      ∀ m, m ≤ n → ∃ y, upIter t m x = some y ∧ y ∈ ids := by
  intro fuel
  induction fuel using Nat.strong_induction_on with
  | _ fuel ih =>
    intro T t d ids hco h x hx
    obtain ⟨f, node, l, rfl, hg, hl, rfl⟩ := post_order_ids_inv h
    obtain ⟨hdid, hdslot⟩ := of_get_some hg
    rcases List.mem_append.mp hx with hx1 | hx2
    · obtain ⟨c, hc, fc, sub, hfc, hdef, hxs, hsubset⟩ :=
        mem_post_order_list_decomp f t node.children l hl x hx1
      obtain ⟨n, hchain, hinter⟩ :=
        ih fc (Nat.lt_succ_of_le hfc) t c sub hco hdef x hxs
      obtain ⟨hcid, cn, hcslot, hcparent⟩ := (hco d.index node hdslot).2 c hc
      have hstep : parent_handle t c = some d := by
        simp only [parent_handle, hcslot, hcparent]
        rw [← hdid]
      refine ⟨n + 1, upIter_snoc n x c d hchain hstep, ?_⟩
      intro m hm
      rcases Nat.eq_or_lt_of_le hm with hm1 | hm2
      · subst hm1
        exact ⟨d, upIter_snoc n x c d hchain hstep,
          List.mem_append.mpr (Or.inr (List.mem_singleton.mpr rfl))⟩
      · obtain ⟨y, hy, hymem⟩ := hinter m (Nat.lt_succ_iff.mp hm2)
        exact ⟨y, hy, List.mem_append.mpr (Or.inl (hsubset y hymem))⟩
    · rw [List.mem_singleton] at hx2
      subst hx2
      refine ⟨0, rfl, ?_⟩
      intro m hm
      rw [Nat.le_zero] at hm
      subst hm
      exact ⟨x, rfl, List.mem_append.mpr (Or.inr (List.mem_singleton.mpr rfl))⟩

theorem nodeid_ext {a b : NodeId} (h1 : a.tree_id = b.tree_id)
    (h2 : a.index = b.index) : a = b := by
  cases a
  cases b
  dsimp only at h1 h2
  subst h1
  subst h2
  rfl

/-- Distinct handles inside one defined post-order computation occupy
distinct slots: the core disjointness property of sibling subtrees,
proved via the uniqueness of stored parent chains. -/
theorem post_order_ids_nodup : ∀ (fuel : Nat) {T : Type} (t : Tree T) (d : NodeId)
    (ids : List NodeId), children_consistent t → post_order_ids fuel t d = some ids →
    (ids.map NodeId.index).Nodup := by
  intro fuel
  induction fuel using Nat.strong_induction_on with
  | _ fuel ihOuter =>
    intro T t d ids hco h
    obtain ⟨f, node, L, rfl, hg, hL, rfl⟩ := post_order_ids_inv h
    obtain ⟨hdid, hdslot⟩ := of_get_some hg
    have hPnotinL : d ∉ L := by
      have h2 := post_order_ids_no_self (f + 1) t d (L ++ [d]) h
      rw [List.dropLast_concat] at h2
      exact h2
    have hkidsnodup : (node.children.map NodeId.index).Nodup :=
      (hco d.index node hdslot).1
    have hparentstep : ∀ c ∈ node.children, parent_handle t c = some d := by
      intro c hc
      obtain ⟨hcid, cn, hcslot, hcparent⟩ := (hco d.index node hdslot).2 c hc
      simp only [parent_handle, hcslot, hcparent]
      rw [← hdid]
    have inner : ∀ (cs : List NodeId) (fuel2 : Nat) (ids2 : List NodeId), fuel2 ≤ f →
        post_order_list fuel2 t cs = some ids2 → (∀ c ∈ cs, c ∈ node.children) →
        (cs.map NodeId.index).Nodup → (∀ x ∈ ids2, x ∈ L) →
        (ids2.map NodeId.index).Nodup := by
      intro cs
      induction cs with
      | nil =>
        intro fuel2 ids2 _ h2 _ _ _
        rw [post_order_list_nil_inv h2]
        simp
      | cons c rest ihcs =>
        intro fuel2 ids2 hle h2 hsub hnodup hin
        obtain ⟨g, cnode, l1, l2, rfl, hgc, hc1, hr1, rfl⟩ := post_order_list_cons_inv h2
        have hsubc : post_order_ids (g + 1) t c = some (l1 ++ [c]) :=
          post_order_ids_build hgc hc1
        have hsubcnodup : ((l1 ++ [c]).map NodeId.index).Nodup :=
          ihOuter (g + 1) (Nat.lt_succ_of_le hle) t c (l1 ++ [c]) hco hsubc
        have hcmem : c ∈ node.children := hsub c (List.mem_cons_self c rest)
        have hl2in : ∀ x ∈ l2, x ∈ L := by
          intro x hx
          exact hin x (List.mem_append.mpr (Or.inr hx))
        have hl2nodup : (l2.map NodeId.index).Nodup := by
          refine ihcs g l2 (Nat.le_of_succ_le hle) hr1 ?_ ?_ hl2in
          · intro e he
            exact hsub e (List.mem_cons_of_mem c he)
          · exact (List.nodup_cons.mp hnodup).2
        have hdisj : ∀ a, a ∈ (l1 ++ [c]).map NodeId.index →
            a ∉ l2.map NodeId.index := by
          intro a ha1 ha2
          obtain ⟨x1, hx1mem, hx1i⟩ := List.mem_map.mp ha1
          obtain ⟨x2, hx2mem, hx2i⟩ := List.mem_map.mp ha2
          obtain ⟨e, hemem, fe, sube, hfe, hedef, hx2s, hesub⟩ :=
            mem_post_order_list_decomp g t rest l2 hr1 x2 hx2mem
          obtain ⟨nx1, hnx1⟩ :=
            mem_post_order_ids_get (g + 1) t c (l1 ++ [c]) hsubc x1 hx1mem
          obtain ⟨nx2, hnx2⟩ := mem_post_order_ids_get fe t e sube hedef x2 hx2s
          have hx12 : x1 = x2 :=
            nodeid_ext (by rw [(of_get_some hnx1).1, (of_get_some hnx2).1])
              (by rw [hx1i, hx2i])
          subst hx12
          have hemem2 : e ∈ node.children := hsub e (List.mem_cons_of_mem c hemem)
          have hce : c.index ≠ e.index := by
            intro hcei
            rw [List.map_cons, List.nodup_cons] at hnodup
            exact hnodup.1 (hcei ▸ List.mem_map.mpr ⟨e, hemem, rfl⟩)
          obtain ⟨n1, hchain1, hinter1⟩ :=
            chain_to_root (g + 1) t c (l1 ++ [c]) hco hsubc x1 hx1mem
          obtain ⟨n2, hchain2, hinter2⟩ :=
            chain_to_root fe t e sube hco hedef x1 hx2s
          rcases Nat.lt_trichotomy n1 n2 with hlt | heq | hgt
          · obtain ⟨y2, hy2, hy2mem⟩ := hinter2 (n1 + 1) hlt
            rw [upIter_snoc n1 x1 c d hchain1 (hparentstep c hcmem)] at hy2
            injection hy2 with hy2d
            subst hy2d
            exact hPnotinL (hl2in d (hesub d hy2mem))
          · subst heq
            rw [hchain1] at hchain2
            injection hchain2 with hce2
            exact hce (by rw [hce2])
          · obtain ⟨y2, hy2, hy2mem⟩ := hinter1 (n2 + 1) hgt
            rw [upIter_snoc n2 x1 e d hchain2 (hparentstep e hemem2)] at hy2
            injection hy2 with hy2d
            subst hy2d
            exact hPnotinL (hin d (List.mem_append.mpr (Or.inl hy2mem)))
        rw [List.map_append]
        rw [List.nodup_append]
        exact ⟨hsubcnodup, hl2nodup, hdisj⟩
    have hLnodup : (L.map NodeId.index).Nodup :=
      inner node.children f L (Nat.le_refl f) hL (fun c hc => hc) hkidsnodup
        (fun x hx => hx)
    rw [List.map_append, List.nodup_append]
    refine ⟨hLnodup, by simp, ?_⟩
    intro a ha1 ha2
    obtain ⟨x1, hx1mem, hx1i⟩ := List.mem_map.mp ha1
    simp only [List.map_cons, List.map_nil, List.mem_singleton] at ha2
    obtain ⟨nx1, hnx1⟩ :=
      mem_post_order_ids_get (f + 1) t d (L ++ [d]) h x1
        (List.mem_append.mpr (Or.inl hx1mem))
    have hx1d : x1 = d :=
      nodeid_ext (by rw [(of_get_some hnx1).1, hdid]) (by rw [hx1i, ha2])
    subst hx1d
    exact hPnotinL hx1mem

/-! ### Soundness of the executable consistency check -/

theorem checkSlot_sound {T : Type} {t : Tree T} {i : Nat} {node : Node T}
    (h : checkSlot t i (some node) = true) :
    (node.children.map NodeId.index).Nodup ∧
    ∀ c ∈ node.children, c.tree_id = t.id ∧
      ∃ cn : Node T, t.nodes[c.index]? = some (some cn) ∧ cn.parent = some ⟨t.id, i⟩ := by
  simp only [checkSlot, Bool.and_eq_true, decide_eq_true_eq, List.all_eq_true] at h
  obtain ⟨h1, h2⟩ := h
  refine ⟨h1, ?_⟩
  intro c hc
  obtain ⟨h4, h5⟩ := h2 c hc
  refine ⟨h4, ?_⟩
  cases hs : t.nodes[c.index]? with
  | none =>
    rw [hs] at h5
    exact Bool.noConfusion h5
  | some s =>
    cases s with
    | none =>
      rw [hs] at h5
      exact Bool.noConfusion h5
    | some cn =>
      simp only [hs, decide_eq_true_eq] at h5
      exact ⟨cn, rfl, h5⟩

theorem childrenOkAux_sound {T : Type} (t : Tree T) : ∀ (l : List (Option (Node T)))
    (k : Nat), childrenOkAux t k l = true →
    ∀ j s, l[j]? = some s → checkSlot t (k + j) s = true := by
  intro l
  induction l with
  | nil =>
    intro k h j s hj
    simp at hj
  | cons a rest ihl =>
    intro k h j s hj
    rw [childrenOkAux, Bool.and_eq_true] at h
    obtain ⟨h1, h2⟩ := h
    cases j with
    | zero =>
      rw [List.getElem?_cons_zero] at hj
      injection hj with hj1
      subst hj1
      simpa using h1
    | succ j =>
      have h3 := ihl (k + 1) h2 j s (by simpa using hj)
      rw [show k + (j + 1) = k + 1 + j from by omega]
      exact h3

theorem childrenOkB_sound {T : Type} {t : Tree T} (h : childrenOkB t = true) :
    children_consistent t := by
  intro i node hi
  have h2 := childrenOkAux_sound t t.nodes 0 h i (some node) hi
  rw [Nat.zero_add] at h2
  exact checkSlot_sound h2

/-! ### Live-slot counting -/

theorem countP_set_none {T : Type} : ∀ (l : List (Option (Node T))) (i : Nat)
    (v : Node T), l[i]? = some (some v) →
    ((l.set i none).countP (fun s => s.isSome)) + 1 =
      l.countP (fun s => s.isSome) := by
  intro l
  induction l with
  | nil =>
    intro i v h
    simp at h
  | cons a rest ihl =>
    intro i v h
    cases i with
    | zero =>
      rw [List.getElem?_cons_zero] at h
      injection h with h1
      subst h1
      simp [List.countP_cons]
    | succ i =>
      rw [List.getElem?_cons_succ] at h
      have h2 := ihl i v h
      rw [List.set_cons_succ]
      rw [List.countP_cons, List.countP_cons]
      omega

theorem countP_set_some {T : Type} : ∀ (l : List (Option (Node T))) (i : Nat)
    (v w : Node T), l[i]? = some (some v) →
    (l.set i (some w)).countP (fun s => s.isSome) =
      l.countP (fun s => s.isSome) := by
  intro l
  induction l with
  | nil =>
    intro i v w h
    simp at h
  | cons a rest ihl =>
    intro i v w h
    cases i with
    | zero =>
      rw [List.getElem?_cons_zero] at h
      injection h with h1
      subst h1
      simp [List.countP_cons]
    | succ i =>
      rw [List.getElem?_cons_succ] at h
      have h2 := ihl i v w h
      rw [List.set_cons_succ]
      rw [List.countP_cons, List.countP_cons]
      omega

/-! ### The cascading removal loop removes exactly the post-order slots -/

/-- Main specification of the `drop_children_recursive` loop: run on any
arena `t1` that agrees with `t` on the slots named by a defined post-order
computation `ids` of the handle list `cs` (computed in `t`), the loop
succeeds and returns `t1` with exactly the `ids` slots vacated, their
handles appended to the free list in post order, every other slot, the
root and the stamp untouched, and the live count decreased by exactly the
number of removed handles. -/
theorem drop_children_list_spec : ∀ (fuel : Nat) {T : Type} (t t1 : Tree T)
    (cs ids : List NodeId),
    post_order_list fuel t cs = some ids →
    (ids.map NodeId.index).Nodup →
    t1.id = t.id →
    (∀ x ∈ ids, t1.nodes[x.index]? = t.nodes[x.index]?) →
    t1.nodes.length = t.nodes.length →
    ∃ t2, Tree.drop_children_list fuel t1 cs = some t2 ∧
      t2.id = t1.id ∧ t2.root = t1.root ∧ t2.nodes.length = t1.nodes.length ∧
      t2.free_ids = t1.free_ids ++ ids ∧
      (∀ j : Nat, j ∉ ids.map NodeId.index → t2.nodes[j]? = t1.nodes[j]?) ∧
      (∀ x ∈ ids, t2.nodes[x.index]? = some none) ∧
      t2.live_count + ids.length = t1.live_count := by
  intro fuel
  induction fuel using Nat.strong_induction_on with
  | _ fuel ih =>
    intro T t t1 cs ids hpost hnodup hid hagree hlen
    cases cs with
    | nil =>
      have hids := post_order_list_nil_inv hpost
      subst hids
      refine ⟨t1, by cases fuel <;> rfl, rfl, rfl, rfl, by simp, fun j hj => rfl,
        fun x hx => absurd hx (List.not_mem_nil x), by simp⟩
    | cons c rest =>
      obtain ⟨f, node, l1, l2, rfl, hg, hc1, hr1, rfl⟩ := post_order_list_cons_inv hpost
      obtain ⟨hcid, hcslot⟩ := of_get_some hg
      have hclt : c.index < t.nodes.length := (List.getElem?_eq_some_iff.mp hcslot).1
      have hcmemids : c ∈ (l1 ++ [c]) ++ l2 := by simp
      have hg1 : t1.get c = some (some node) :=
        get_of_slot (by rw [hid]; exact hcid)
          (by rw [hagree c hcmemids]; exact hcslot)
      rw [List.map_append, List.nodup_append] at hnodup
      obtain ⟨hn1, hn2, hdisj⟩ := hnodup
      rw [List.map_append, List.nodup_append] at hn1
      obtain ⟨hn1a, _, hdisj1⟩ := hn1
      have hcnotl1 : c.index ∉ l1.map NodeId.index := by
        intro hmem
        exact hdisj1 hmem (by simp)
      have hcnotl2 : c.index ∉ l2.map NodeId.index := by
        intro hmem
        refine hdisj ?_ hmem
        rw [List.map_append]
        simp
      obtain ⟨t2a, hda, hia, hra, hla, hfa, hframea, hvaca, hcnta⟩ :=
        ih f (Nat.lt_succ_self f) t t1 node.children l1 hc1 hn1a hid
          (fun x hx => hagree x (by simp [hx]))
          hlen
      have hcslot2a : t2a.nodes[c.index]? = some (some node) := by
        rw [hframea c.index hcnotl1, hagree c hcmemids]
        exact hcslot
      have hdirty := remove_node_dirty_spec hcslot2a
      have hlenb : (t2a.nodes.set c.index none).length = t.nodes.length := by
        rw [List.length_set, hla, hlen]
      obtain ⟨t2, hd2, hi2, hr2, hl2b, hf2, hframe2, hvac2, hcnt2⟩ :=
        ih f (Nat.lt_succ_self f) t
          ⟨t2a.id, t2a.root, t2a.nodes.set c.index none, t2a.free_ids ++ [c]⟩
          rest l2 hr1 hn2 (by dsimp only; rw [hia, hid])
          (by
            intro x hx
            dsimp only
            have hxc : x.index ≠ c.index := by
              intro he
              exact hcnotl2 (he ▸ List.mem_map.mpr ⟨x, hx, rfl⟩)
            rw [List.getElem?_set_ne (fun he => hxc he.symm)]
            have hxnotl1 : x.index ∉ (l1.map NodeId.index) := by
              intro hmem
              refine hdisj ?_ (List.mem_map.mpr ⟨x, hx, rfl⟩)
              rw [List.map_append]
              exact List.mem_append.mpr (Or.inl hmem)
            rw [hframea x.index hxnotl1]
            exact hagree x (by simp [hx]))
          (by dsimp only; exact hlenb)
      refine ⟨t2, ?_, ?_, ?_, ?_, ?_, ?_, ?_, ?_⟩
      · simp only [Tree.drop_children_list, hg1, hda, hdirty]
        exact hd2
      · rw [hi2]
        dsimp only
        exact hia
      · rw [hr2]
        dsimp only
        exact hra
      · rw [hl2b]
        dsimp only
        rw [List.length_set]
        exact hla
      · rw [hf2]
        dsimp only
        rw [hfa]
        simp
      · intro j hj
        have hj2 : j ∉ l2.map NodeId.index := by
          intro hmem
          refine hj ?_
          rw [List.map_append]
          exact List.mem_append.mpr (Or.inr hmem)
        have hjc : j ≠ c.index := by
          intro he
          refine hj ?_
          rw [List.map_append, he]
          refine List.mem_append.mpr (Or.inl ?_)
          rw [List.map_append]
          simp
        have hj1 : j ∉ l1.map NodeId.index := by
          intro hmem
          refine hj ?_
          rw [List.map_append]
          refine List.mem_append.mpr (Or.inl ?_)
          rw [List.map_append]
          exact List.mem_append.mpr (Or.inl hmem)
        rw [hframe2 j hj2]
        dsimp only
        rw [List.getElem?_set_ne (fun he => hjc he.symm)]
        exact hframea j hj1
      · intro x hx
        rcases List.mem_append.mp hx with hx1 | hx2
        · have hxnotl2 : x.index ∉ l2.map NodeId.index := by
            intro hmem
            exact hdisj (List.mem_map.mpr ⟨x, hx1, rfl⟩) hmem
          rw [hframe2 x.index hxnotl2]
          dsimp only
          rcases List.mem_append.mp hx1 with hx1a | hx1b
          · have hxc : x.index ≠ c.index := by
              intro he
              exact hcnotl1 (he ▸ List.mem_map.mpr ⟨x, hx1a, rfl⟩)
            rw [List.getElem?_set_ne (fun he => hxc he.symm)]
            exact hvaca x hx1a
          · rw [List.mem_singleton] at hx1b
            subst hx1b
            exact List.getElem?_set_self (by rw [hla, hlen]; exact hclt)
        · exact hvac2 x hx2
      · have hcb : (⟨t2a.id, t2a.root, t2a.nodes.set c.index none,
            t2a.free_ids ++ [c]⟩ : Tree T).live_count + 1 = t2a.live_count := by
          simp only [Tree.live_count]
          exact countP_set_none t2a.nodes c.index node hcslot2a
        have hlens : ((l1 ++ [c]) ++ l2).length = l1.length + 1 + l2.length := by
          simp only [List.length_append, List.length_cons, List.length_nil]
        omega

/-! ### Claim C5: cascading removal, amended theorem -/

/-- C5, amended.  On an arena satisfying the children-consistency
invariant, for a valid handle whose node has N descendants (its defined
post-order list `ids` holds the node and its N descendants, so
`ids.length = N + 1`), and whose parent link is absent or names a live
slot outside the removed subtree (the proviso forced by the
counterexample), cascading removal succeeds, returns the node with its
children list cleared, removes exactly the `ids.length = N + 1` live
nodes (the live count drops by exactly that much and every removed handle
now fails lookup with `get` returning None), and clears the root pointer
exactly when the removed node was the root. -/
theorem claim5_amended {T : Type} (t : Tree T) (nid : NodeId) (node : Node T)
    (ids : List NodeId)
    (hcheck : childrenOkB t = true)
    (hget : t.get nid = some (some node))
    (hpost : t.traverse_post_order_ids nid = some ids)
    (hparent : node.parent = none ∨ ∃ p pn, node.parent = some p ∧ p.tree_id = t.id ∧
      t.nodes[p.index]? = some (some pn) ∧ p.index ∉ ids.map NodeId.index) :
    ∃ t2, t.remove_node_drop_children nid =
        some (t2, Except.ok { node with children := [] }) ∧
      t2.live_count + ids.length = t.live_count ∧
      (∀ h ∈ ids, t2.get h = some none) ∧
      (t.root = some nid → t2.root = none) ∧
      (t.root ≠ some nid → t2.root = t.root) := by
  have hco := childrenOkB_sound hcheck
  obtain ⟨hid, hslot⟩ := of_get_some hget
  have hlt : nid.index < t.nodes.length := (List.getElem?_eq_some_iff.mp hslot).1
  have hvalid := is_valid_of_slot hid hslot
  rw [Tree.traverse_post_order_ids] at hpost
  obtain ⟨f, node2, L, hfe, hg2, hL, hidseq⟩ := post_order_ids_inv hpost
  have hnode2 : node2 = node := get_fun hg2 hget
  rw [hnode2] at hL
  have hfeq : f = t.nodes.length := by omega
  subst hfeq
  subst hidseq
  have hnodup := post_order_ids_nodup (t.nodes.length + 1) t nid (L ++ [nid]) hco hpost
  rw [List.map_append, List.nodup_append] at hnodup
  obtain ⟨hLnodup, _, hLdisj⟩ := hnodup
  have hnidnotL : nid.index ∉ L.map NodeId.index := fun hmem => hLdisj hmem (by simp)
  have hmemtid : ∀ h ∈ L ++ [nid], h.tree_id = t.id := by
    intro h hmem
    obtain ⟨nh, hnh⟩ := mem_post_order_ids_get (t.nodes.length + 1) t nid (L ++ [nid])
      hpost h hmem
    exact (of_get_some hnh).1
  have core : ∀ t0 : Tree T, t0.id = t.id → t0.nodes = t.nodes →
      ∃ t1 t2,
        Tree.drop_children_recursive (t0.nodes.length + 1) t0 nid = some t1 ∧
        t1.remove_node nid = some (t2, node) ∧
        t2.id = t.id ∧ t2.root = t0.root ∧
        t2.live_count + (L ++ [nid]).length = t.live_count ∧
        (∀ h ∈ L ++ [nid], t2.nodes[h.index]? = some none) := by
    intro t0 h0id h0nodes
    have hg0 : t0.get nid = some (some node) :=
      get_of_slot (by rw [h0id]; exact hid) (by rw [h0nodes]; exact hslot)
    obtain ⟨t1, hd1, hi1, hr1, hl1, hf1, hframe1, hvac1, hcnt1⟩ :=
      drop_children_list_spec t.nodes.length t t0 node.children L hL hLnodup h0id
        (by intro x hx; rw [h0nodes]) (by rw [h0nodes])
    have hdrop : Tree.drop_children_recursive (t0.nodes.length + 1) t0 nid = some t1 := by
      simp only [Tree.drop_children_recursive, hg0]
      rw [show t0.nodes.length = t.nodes.length from by rw [h0nodes]]
      exact hd1
    have hcnt0 : t0.live_count = t.live_count := by
      rw [Tree.live_count, Tree.live_count, h0nodes]
    have hnidslot1 : t1.nodes[nid.index]? = some (some node) := by
      rw [hframe1 nid.index hnidnotL, h0nodes]
      exact hslot
    have hdirty := remove_node_dirty_spec hnidslot1
    have hlt1 : nid.index < t1.nodes.length := by
      rw [hl1, h0nodes]
      exact hlt
    have hvacL : ∀ h ∈ L, (t1.nodes.set nid.index none)[h.index]? = some none := by
      intro h hmem
      have hne : h.index ≠ nid.index := by
        intro he
        exact hnidnotL (he ▸ List.mem_map.mpr ⟨h, hmem, rfl⟩)
      rw [List.getElem?_set_ne (fun he => hne he.symm)]
      exact hvac1 h hmem
    have hvacnid : (t1.nodes.set nid.index none)[nid.index]? = some none :=
      List.getElem?_set_self hlt1
    have hcb : (⟨t1.id, t1.root, t1.nodes.set nid.index none,
        t1.free_ids ++ [nid]⟩ : Tree T).live_count + 1 = t1.live_count := by
      simp only [Tree.live_count]
      exact countP_set_none t1.nodes nid.index node hnidslot1
    have hlenapp : (L ++ [nid]).length = L.length + 1 := by simp
    rcases hparent with hpnone | ⟨p, pn, hpe, hpid, hpslot, hpnot⟩
    · have hrn : t1.remove_node nid = some (⟨t1.id, t1.root,
          t1.nodes.set nid.index none, t1.free_ids ++ [nid]⟩, node) := by
        rw [Tree.remove_node, hdirty]
        dsimp only
        rw [hpnone]
      refine ⟨t1, _, hdrop, hrn, ?_, ?_, ?_, ?_⟩
      · dsimp only
        rw [hi1, h0id]
      · dsimp only
        exact hr1
      · rw [hlenapp]
        omega
      · intro h hmem
        dsimp only
        rcases List.mem_append.mp hmem with hm1 | hm2
        · exact hvacL h hm1
        · rw [List.mem_singleton] at hm2
          subst hm2
          exact hvacnid
    · have hpne : nid.index ≠ p.index := by
        intro he
        exact hpnot (he ▸ (by simp : nid.index ∈ (L ++ [nid]).map NodeId.index))
      have hpnotL : p.index ∉ L.map NodeId.index := by
        intro hmem
        refine hpnot ?_
        rw [List.map_append]
        exact List.mem_append.mpr (Or.inl hmem)
      have hpslot1b : (t1.nodes.set nid.index none)[p.index]? = some (some pn) := by
        rw [List.getElem?_set_ne hpne, hframe1 p.index hpnotL, h0nodes]
        exact hpslot
      have hpget : (⟨t1.id, t1.root, t1.nodes.set nid.index none,
          t1.free_ids ++ [nid]⟩ : Tree T).get p = some (some pn) :=
        get_of_slot (show p.tree_id = t1.id from by rw [hi1, h0id]; exact hpid)
          hpslot1b
      have hrn : t1.remove_node nid = some (⟨t1.id, t1.root,
          (t1.nodes.set nid.index none).set p.index
            (some { pn with children := pn.children.filter (fun x => decide (x ≠ nid)) }),
          t1.free_ids ++ [nid]⟩, node) := by
        rw [Tree.remove_node, hdirty]
        dsimp only
        rw [hpe]
        dsimp only
        rw [get_mut_eq_get, hpget]
      refine ⟨t1, _, hdrop, hrn, ?_, ?_, ?_, ?_⟩
      · dsimp only
        rw [hi1, h0id]
      · dsimp only
        exact hr1
      · have hcp : ((t1.nodes.set nid.index none).set p.index
            (some { pn with children :=
              pn.children.filter (fun x => decide (x ≠ nid)) })).countP
              (fun s => s.isSome) =
            (t1.nodes.set nid.index none).countP (fun s => s.isSome) :=
          countP_set_some (t1.nodes.set nid.index none) p.index pn _ hpslot1b
        simp only [Tree.live_count] at hcb hcnt1 hcnt0 ⊢
        rw [hcp, hlenapp]
        omega
      · intro h hmem
        dsimp only
        have hnep : h.index ≠ p.index := by
          intro he
          exact hpnot (he ▸ List.mem_map.mpr ⟨h, hmem, rfl⟩)
        rw [List.getElem?_set_ne (fun he => hnep he.symm)]
        rcases List.mem_append.mp hmem with hm1 | hm2
        · exact hvacL h hm1
        · rw [List.mem_singleton] at hm2
          subst hm2
          exact hvacnid
  by_cases hroot : t.root = some nid
  · have hbroot : t.is_root_node nid = true := by
      rw [Tree.is_root_node, hroot]
      simp
    obtain ⟨t1, t2, hdrop, hrn, h2id, h2root, h2cnt, h2vac⟩ :=
      core ⟨t.id, none, t.nodes, t.free_ids⟩ rfl rfl
    have hrun : t.remove_node_drop_children nid =
        some (t2, Except.ok { node with children := [] }) := by
      rw [Tree.remove_node_drop_children, hvalid]
      dsimp only
      rw [if_neg (by simp), hbroot, if_pos rfl, hdrop]
      dsimp only
      rw [hrn]
    refine ⟨t2, hrun, h2cnt, ?_, fun _ => h2root, fun hne => absurd hroot hne⟩
    intro h hmem
    exact get_stale (by rw [hmemtid h hmem, ← h2id]) (h2vac h hmem)
  · have hbroot : t.is_root_node nid = false := by
      rw [Tree.is_root_node]
      cases hr : t.root with
      | none => rfl
      | some r =>
        simp only [decide_eq_false_iff_not]
        intro he
        exact hroot (by rw [hr, he])
    obtain ⟨t1, t2, hdrop, hrn, h2id, h2root, h2cnt, h2vac⟩ := core t rfl rfl
    have hrun : t.remove_node_drop_children nid =
        some (t2, Except.ok { node with children := [] }) := by
      rw [Tree.remove_node_drop_children, hvalid]
      dsimp only
      rw [if_neg (by simp), hbroot, if_neg (by simp), hdrop]
      dsimp only
      rw [hrn]
    refine ⟨t2, hrun, h2cnt, ?_, fun he => absurd he hroot, fun _ => h2root⟩
    intro h hmem
    exact get_stale (by rw [hmemtid h hmem, ← h2id]) (h2vac h hmem)

/-- C5, witness for the amended theorem: cascading removal of the root of
the chain 0 - 1 - 2, which has N = 2 descendants; all three nodes are
removed, the returned children list is cleared and the root is cleared. -/
theorem claim5_witness :
    ∃ t2, chainT.remove_node_drop_children ⟨0, 0⟩ =
        some (t2, Except.ok { data := 0, parent := none, children := [] }) ∧
      t2.live_count + [(⟨0, 2⟩ : NodeId), ⟨0, 1⟩, ⟨0, 0⟩].length = chainT.live_count ∧
      (∀ h ∈ [(⟨0, 2⟩ : NodeId), ⟨0, 1⟩, ⟨0, 0⟩], t2.get h = some none) ∧
      (chainT.root = some ⟨0, 0⟩ → t2.root = none) ∧
      (chainT.root ≠ some ⟨0, 0⟩ → t2.root = chainT.root) :=
  claim5_amended chainT ⟨0, 0⟩ { data := 0, parent := none, children := [⟨0, 1⟩] }
    [⟨0, 2⟩, ⟨0, 1⟩, ⟨0, 0⟩] rfl rfl rfl (Or.inl rfl)

end IdTree
